import Mathlib

/-!
Verification of the RummikubConsole engine (`src/rummikubconsole`).

This file gives a shallow embedding, in Lean 4, of the data model and the
operations of the engine:

* `ruleset.py` — `RuleSet.__init__`, the set enumeration (`_runs`, `_groups`,
  `_combine_with_jokers`, `sets`), the set scoring (`setvalues`), and the
  orchestration (`solve`, `arrange_table`);
* `gamestate.py` — `GameState` with its `Counter` multisets and its `int8`
  numpy count arrays (modelled with wraparound arithmetic on `ℤ`);
* `solver.py` — the incidence matrix, the ILP constraint system shared by the
  three problem templates, and the decoding of an integer solution.

Python-level conventions used throughout the embedding:

* Python `range(a, b)` is `pyRange a b` (empty when `b ≤ a`, as in Python).
* `itertools.combinations(l, k)` enumerates the length-`k` sublists of `l`
  keeping relative order; its output collection is embedded as
  `List.sublistsLen k l` (same members; the enumeration order is irrelevant
  because every use feeds a Python `set`, embedded as `dedup`).
* numpy `int8` cells wrap modulo 256 into `[-128, 127]`; `i8wrap` models one
  wrapped addition.
* a Python function that can raise is embedded as `Except PyErr _`.
* calls into the external MILP backend are modelled by passing the solver as
  an explicit function argument (an oracle) of type
  `SolverMode → GameStateRep → SolverSolution`.
-/

/-- Python `range(a, b)` with step 1: the list `[a, a+1, …, b-1]`, empty when
`b ≤ a`. -/
def pyRange (a b : ℕ) : List ℕ := List.range' a (b - a)

instance {ε α : Type _} [DecidableEq ε] [DecidableEq α] :
    DecidableEq (Except ε α) := fun x y =>
  match x, y with
  | Except.ok a, Except.ok b =>
      if h : a = b then isTrue (congrArg Except.ok h)
      else isFalse fun hh => h (Except.ok.inj hh)
  | Except.error a, Except.error b =>
      if h : a = b then isTrue (congrArg Except.error h)
      else isFalse fun hh => h (Except.error.inj hh)
  | Except.ok _, Except.error _ => isFalse fun hh => Except.noConfusion hh
  | Except.error _, Except.ok _ => isFalse fun hh => Except.noConfusion hh

/-- Errors a Python method of this code base can raise: the `ValueError` in
`GameState.with_move`; the `UnboundLocalError` that
`RuleSet.arrange_table` hits when the ruleset has no joker (`joker_count` is
only assigned inside `if joker is not None:` but is read unconditionally by
`for jc in range(joker_count + 1)`); and the uncaught `StopIteration` that
`RuleSet.setvalues` raises from `_calc` when an enumerated set consists
entirely of jokers (`n0 = next(nums)` sits outside the `try` block). -/
inductive PyErr where
  | valueError : PyErr
  | unboundLocal : PyErr
  | stopIteration : PyErr
deriving DecidableEq, Repr

/-- Configuration parameters of `RuleSet.__init__` (source order: numbers,
repeats, colours, jokers, min_len, min_initial_value). -/
structure RuleConfig where
  numbers : ℕ
  repeats : ℕ
  colours : ℕ
  jokers : ℕ
  min_len : ℕ
  min_initial_value : ℕ
deriving DecidableEq, Repr

/-- Legal parameter ranges of spec §4.1 together with the two consistency
constraints of spec §6 (`min_len ≤ colours`, `min_len ≤ numbers`). -/
def LegalConfig (cfg : RuleConfig) : Prop :=
  2 ≤ cfg.numbers ∧ cfg.numbers ≤ 26 ∧
  1 ≤ cfg.repeats ∧ cfg.repeats ≤ 4 ∧
  2 ≤ cfg.colours ∧ cfg.colours ≤ 8 ∧
  cfg.jokers ≤ 4 ∧
  2 ≤ cfg.min_len ∧ cfg.min_len ≤ 6 ∧
  1 ≤ cfg.min_initial_value ∧ cfg.min_initial_value ≤ 50 ∧
  cfg.min_len ≤ cfg.colours ∧ cfg.min_len ≤ cfg.numbers

instance (cfg : RuleConfig) : Decidable (LegalConfig cfg) := by
  unfold LegalConfig; infer_instance

/-- Number of distinct tile identifiers (`RuleSet.__init__`:
`tile_count = numbers * colours`, plus one for the joker when `jokers` is
truthy). -/
def tileCount (cfg : RuleConfig) : ℕ :=
  cfg.numbers * cfg.colours + (if cfg.jokers ≠ 0 then 1 else 0)

/-- Joker tile identifier (`RuleSet.__init__`: `self.joker = None`, replaced
by the incremented `tile_count` when `jokers` is truthy). -/
def jokerOf (cfg : RuleConfig) : Option ℕ :=
  if cfg.jokers ≠ 0 then some (cfg.numbers * cfg.colours + 1) else none

/-- Record of the fields `RuleSet.__init__` assigns. -/
structure RuleSetRep where
  numbers : ℕ
  repeats : ℕ
  colours : ℕ
  jokers : ℕ
  min_len : ℕ
  min_initial_value : ℕ
  tile_count : ℕ
  joker : Option ℕ
deriving DecidableEq, Repr

/-! ### GameState (gamestate.py)

`GameState` keeps a `Counter` (multiset) and an `int8` numpy array for each
of rack and table.  The arrays are updated with `np.add.at` / `np.subtract.at`
(element-wise, wrapping on `int8` overflow) and, after removals, negative
cells are clamped to zero. -/

theorem insertionSort_congr {α : Type _} (r : α → α → Prop) [DecidableRel r]
    [IsTotal α r] [IsTrans α r] [IsAntisymm α r] {l₁ l₂ : List α}
    (p : l₁.Perm l₂) :
    List.insertionSort r l₁ = List.insertionSort r l₂ :=
  List.eq_of_perm_of_sorted
    ((List.perm_insertionSort r l₁).trans (p.trans (List.perm_insertionSort r l₂).symm))
    (List.sorted_insertionSort r l₁) (List.sorted_insertionSort r l₂)

/-- Ascending enumeration of a multiset of naturals (kernel-reducible, unlike
`Multiset.sort` which is built on merge sort). -/
def sortedElems (m : Multiset ℕ) : List ℕ :=
  Quot.liftOn m (fun l => List.insertionSort (· ≤ ·) l)
    fun _ _ p => insertionSort_congr _ p

theorem coe_sortedElems (m : Multiset ℕ) : (↑(sortedElems m) : Multiset ℕ) = m :=
  Quot.inductionOn m fun l => Multiset.coe_eq_coe.mpr (List.perm_insertionSort _ l)

/-- Wrap an integer into the `int8` range `[-128, 127]`, the way numpy `int8`
arithmetic behaves on overflow. -/
def i8wrap (z : ℤ) : ℤ := (z + 128) % 256 - 128

/-- One `np.add.at`/`np.subtract.at` step at a single index: add `d` to cell
`idx` with `int8` wraparound.  A Python index `t - 1` that is out of range
would raise `IndexError`; every theorem below restricts tile identifiers to
`[1, tile_count]`, where `List.set` always hits a cell. -/
def bumpAt (arr : List ℤ) (idx : ℕ) (d : ℤ) : List ℤ :=
  arr.set idx (i8wrap (arr.getD idx 0 + d))

/-- Clamp negative cells to zero: `arr[arr < 0] = 0`. -/
def clampNeg (arr : List ℤ) : List ℤ :=
  arr.map fun z => if z < 0 then 0 else z

/-- Per-player game state: tile multisets (`collections.Counter`), the
`int8` count arrays kept in sync with them, and the initial-meld flag. -/
structure GameStateRep where
  tileCountF : ℕ
  rack : Multiset ℕ
  table : Multiset ℕ
  rackArr : List ℤ
  tableArr : List ℤ
  initial : Bool
deriving DecidableEq

/-- State produced by `GameState.reset` (and by `__init__` before the
optional adds): empty multisets, zero arrays, `initial = True`. -/
def emptyState (T : ℕ) : GameStateRep :=
  { tileCountF := T
    rack := 0
    table := 0
    rackArr := List.replicate T 0
    tableArr := List.replicate T 0
    initial := true }

/-- Embedding of `GameState.add_rack`: no-op on an empty argument, otherwise
`rack += Counter(additions)` and `np.add.at(rack_array, additions - 1, 1)`. -/
def addRack (s : GameStateRep) (l : List ℕ) : GameStateRep :=
  if l = [] then s
  else
    { s with
      rack := s.rack + ↑l
      rackArr := l.foldl (fun a t => bumpAt a (t - 1) 1) s.rackArr }

/-- Embedding of `GameState.remove_rack`: no-op on an empty argument,
otherwise `rack -= Counter(removals)` (Counter subtraction truncates at
zero), `np.subtract.at(rack_array, removals - 1, 1)`, then clamp negatives. -/
def removeRack (s : GameStateRep) (l : List ℕ) : GameStateRep :=
  if l = [] then s
  else
    { s with
      rack := s.rack - ↑l
      rackArr := clampNeg (l.foldl (fun a t => bumpAt a (t - 1) (-1)) s.rackArr) }

/-- Embedding of `GameState.add_table` (same shape as `add_rack`). -/
def addTable (s : GameStateRep) (l : List ℕ) : GameStateRep :=
  if l = [] then s
  else
    { s with
      table := s.table + ↑l
      tableArr := l.foldl (fun a t => bumpAt a (t - 1) 1) s.tableArr }

/-- Embedding of `GameState.remove_table` (same shape as `remove_rack`). -/
def removeTable (s : GameStateRep) (l : List ℕ) : GameStateRep :=
  if l = [] then s
  else
    { s with
      table := s.table - ↑l
      tableArr := clampNeg (l.foldl (fun a t => bumpAt a (t - 1) (-1)) s.tableArr) }

/-- Embedding of `GameState.__init__(tile_count, table, rack)`: `reset()`
then `add_table(table)` and `add_rack(rack)` (guarded in the source by
truthiness, which coincides with the empty-argument guards inside the add
methods). -/
def gameStateInit (T : ℕ) (table rack : List ℕ) : GameStateRep :=
  addRack (addTable (emptyState T) table) rack

/-- Embedding of `GameState.with_move` (gamestate.py lines 53-66).  The moved
tiles are validated against the rack (`if moved - self.rack: raise
ValueError`), then a fresh state is constructed from the enumerations of
`table + moved` and `rack - moved`.  Python's `Counter.elements()`
enumeration order is insertion order; the embedding enumerates in sorted
order, which constructs the identical state because `Counter` addition and
the per-cell array increments are order-independent.  The result pairs the
(unmutated) receiver with the fresh state, reflecting that the method only
reads `self`. -/
def withMove (s : GameStateRep) (tiles : List ℕ) :
    Except PyErr (GameStateRep × GameStateRep) :=
  if (↑tiles : Multiset ℕ) - s.rack ≠ 0 then Except.error PyErr.valueError
  else
    Except.ok (s, gameStateInit s.tileCountF
      (sortedElems (s.table + ↑tiles))
      (sortedElems (s.rack - ↑tiles)))

/-- Embedding of `GameState.table_only`: a fresh state built from
`sorted_table` alone. -/
def tableOnly (s : GameStateRep) : GameStateRep :=
  gameStateInit s.tileCountF (sortedElems s.table) []

theorem gameStateInit_fields (T : ℕ) (table rack : List ℕ) :
    (gameStateInit T table rack).table = ↑table ∧
    (gameStateInit T table rack).rack = ↑rack ∧
    (gameStateInit T table rack).initial = true ∧
    (gameStateInit T table rack).tileCountF = T := by
  unfold gameStateInit addRack addTable emptyState
  by_cases ht : table = [] <;> by_cases hr : rack = [] <;>
    simp [ht, hr]

/-- C7 counterexample: moving tile `1` out of an empty rack raises
`ValueError` — `with_move` does validate its argument, contradicting the
claim that it never raises. -/
theorem withMove_raises_on_absent_tile :
    withMove (emptyState 4) [1] = Except.error PyErr.valueError := by
  decide

/-- C7 (amended): `with_move` validates the moved tiles against the rack: it
raises `ValueError` exactly when the moved tiles are not contained in the
rack count-wise, and returns normally otherwise (no clamping is involved on
the success path). -/
theorem withMove_error_iff (s : GameStateRep) (tiles : List ℕ) :
    withMove s tiles = Except.error PyErr.valueError ↔
      ¬ (↑tiles : Multiset ℕ) ≤ s.rack := by
  unfold withMove
  constructor
  · intro h hle
    rw [if_neg (by simpa using tsub_eq_zero_iff_le.mpr hle)] at h
    exact Except.noConfusion h
  · intro hnle
    rw [if_pos]
    intro h0
    exact hnle (tsub_eq_zero_iff_le.mp h0)

/-- C8 (confirmed): when the moved tiles are on the rack count-wise,
`with_move` returns normally; the receiver is returned unchanged (the method
only reads it) and the fresh state's table is the old table plus the moved
tiles, its rack the old rack minus them. -/
theorem withMove_spec (s : GameStateRep) (tiles : List ℕ)
    (h : (↑tiles : Multiset ℕ) ≤ s.rack) :
    ∃ s₂, withMove s tiles = Except.ok (s, s₂) ∧
      s₂.table = s.table + ↑tiles ∧
      s₂.rack = s.rack - ↑tiles := by
  refine ⟨gameStateInit s.tileCountF
      (sortedElems (s.table + ↑tiles))
      (sortedElems (s.rack - ↑tiles)), ?_, ?_, ?_⟩
  · unfold withMove
    rw [if_neg (by simpa using tsub_eq_zero_iff_le.mpr h)]
  · rw [(gameStateInit_fields _ _ _).1, coe_sortedElems]
  · rw [(gameStateInit_fields _ _ _).2.1, coe_sortedElems]

/-- C8 witness: a rack holding exactly tile `1` admits the move `[1]`. -/
theorem withMove_spec_witness :
    ((↑[1] : Multiset ℕ) ≤ (gameStateInit 2 [] [1]).rack) ∧
      ∃ s₂, withMove (gameStateInit 2 [] [1]) [1] =
          Except.ok (gameStateInit 2 [] [1], s₂) ∧
        s₂.table = (gameStateInit 2 [] [1]).table + ↑[1] ∧
        s₂.rack = (gameStateInit 2 [] [1]).rack - ↑[1] :=
  ⟨by decide, withMove_spec (gameStateInit 2 [] [1]) [1] (by decide)⟩

/-- C10 (confirmed): every state returned by `with_move` or `table_only` is
built through `GameState.__init__`, whose `reset()` sets `initial = True`;
the source state's flag is never copied over. -/
theorem derived_states_initial (s : GameStateRep) (tiles : List ℕ) :
    (tableOnly s).initial = true ∧
      ∀ p, withMove s tiles = Except.ok p → p.2.initial = true := by
  constructor
  · exact (gameStateInit_fields _ _ _).2.2.1
  · intro p hp
    unfold withMove at hp
    by_cases hc : (↑tiles : Multiset ℕ) - s.rack ≠ 0
    · rw [if_pos hc] at hp; exact Except.noConfusion hp
    · rw [if_neg hc] at hp
      cases hp
      exact (gameStateInit_fields _ _ _).2.2.1

/-- C10 witness: applied to a state whose `initial` flag is `false`, the
derived states still carry `initial = true`. -/
theorem derived_states_initial_witness :
    (tableOnly { gameStateInit 2 [] [1] with initial := false }).initial = true ∧
      withMove { gameStateInit 2 [] [1] with initial := false } [1] =
        Except.ok ({ gameStateInit 2 [] [1] with initial := false },
          gameStateInit 2 [1] []) ∧
      (gameStateInit 2 [1] [] : GameStateRep).initial = true :=
  ⟨(derived_states_initial { gameStateInit 2 [] [1] with initial := false } [1]).1,
    by decide,
    (derived_states_initial { gameStateInit 2 [] [1] with initial := false } [1]).2
      ({ gameStateInit 2 [] [1] with initial := false }, gameStateInit 2 [1] [])
      (by decide)⟩

/-! ### C9: add/remove operation sequences on a GameState -/

/-- One mutating `GameState` operation. -/
inductive GOp where
  | addR : List ℕ → GOp
  | remR : List ℕ → GOp
  | addT : List ℕ → GOp
  | remT : List ℕ → GOp
deriving DecidableEq

/-- Dispatch one operation to the corresponding `GameState` method. -/
def applyOp (s : GameStateRep) : GOp → GameStateRep
  | GOp.addR l => addRack s l
  | GOp.remR l => removeRack s l
  | GOp.addT l => addTable s l
  | GOp.remT l => removeTable s l

/-- Run a sequence of operations from a freshly created state. -/
def runOps (T : ℕ) (ops : List GOp) : GameStateRep :=
  ops.foldl applyOp (emptyState T)

/-- Representation invariant tying the two views together: the arrays have
one cell per tile, each cell holds exactly the multiset count of its tile,
and each count fits `int8` without overflow. -/
def StateInv (s : GameStateRep) : Prop :=
  s.rackArr.length = s.tileCountF ∧ s.tableArr.length = s.tileCountF ∧
  (∀ i < s.tileCountF,
    s.rackArr.getD i 0 = s.rack.count (i + 1) ∧ s.rack.count (i + 1) ≤ 127) ∧
  (∀ i < s.tileCountF,
    s.tableArr.getD i 0 = s.table.count (i + 1) ∧ s.table.count (i + 1) ≤ 127)

/-- Side conditions under which an operation is free of `int8` overflow and
of out-of-range indexing: tile identifiers lie in `[1, tile_count]`,
additions keep every per-tile count at most 127, and a removal removes at
most 128 copies of a tile. -/
def opOK (s : GameStateRep) : GOp → Prop
  | GOp.addR l => ∀ t ∈ l, 1 ≤ t ∧ t ≤ s.tileCountF ∧ s.rack.count t + l.count t ≤ 127
  | GOp.remR l => ∀ t ∈ l, 1 ≤ t ∧ t ≤ s.tileCountF ∧ l.count t ≤ 128
  | GOp.addT l => ∀ t ∈ l, 1 ≤ t ∧ t ≤ s.tileCountF ∧ s.table.count t + l.count t ≤ 127
  | GOp.remT l => ∀ t ∈ l, 1 ≤ t ∧ t ≤ s.tileCountF ∧ l.count t ≤ 128

/-- The side conditions, threaded along a whole sequence of operations. -/
def OpsOK : GameStateRep → List GOp → Prop
  | _, [] => True
  | s, op :: rest => opOK s op ∧ OpsOK (applyOp s op) rest

instance (s : GameStateRep) (op : GOp) : Decidable (opOK s op) := by
  cases op <;> (unfold opOK; infer_instance)

instance : ∀ (s : GameStateRep) (ops : List GOp), Decidable (OpsOK s ops)
  | _, [] => isTrue trivial
  | s, op :: rest =>
      @instDecidableAnd _ _ _ (instDecidableOpsOK (applyOp s op) rest)

theorem i8wrap_eq_self {z : ℤ} (h1 : -128 ≤ z) (h2 : z ≤ 127) : i8wrap z = z := by
  unfold i8wrap; omega

theorem getD_set_self {arr : List ℤ} {i : ℕ} (h : i < arr.length) (v : ℤ) :
    (arr.set i v).getD i 0 = v := by
  simp [List.getD_eq_getElem?_getD, List.getElem?_set, h]

theorem getD_set_ne {arr : List ℤ} {i j : ℕ} (h : i ≠ j) (v : ℤ) :
    (arr.set i v).getD j 0 = arr.getD j 0 := by
  simp [List.getD_eq_getElem?_getD, List.getElem?_set, h]

theorem getD_map_lt (arr : List ℤ) (f : ℤ → ℤ) {i : ℕ} (h : i < arr.length) :
    (arr.map f).getD i 0 = f (arr.getD i 0) := by
  simp [List.getD_eq_getElem?_getD, List.getElem?_map, List.getElem?_eq_getElem h]

theorem length_foldl_bump (l : List ℕ) (arr : List ℤ) (d : ℤ) :
    (l.foldl (fun a t => bumpAt a (t - 1) d) arr).length = arr.length := by
  induction l generalizing arr with
  | nil => rfl
  | cons t rest ih => simpa [bumpAt, List.length_set] using ih (bumpAt arr (t - 1) d)

theorem foldl_bump_add (l : List ℕ) (arr : List ℤ) (i : ℕ)
    (hl : ∀ t ∈ l, 1 ≤ t) (hi : i < arr.length)
    (h0 : 0 ≤ arr.getD i 0) (hb : arr.getD i 0 + l.count (i + 1) ≤ 127) :
    (l.foldl (fun a t => bumpAt a (t - 1) 1) arr).getD i 0 =
      arr.getD i 0 + l.count (i + 1) := by
  induction l generalizing arr with
  | nil => simp
  | cons t rest ih =>
    have ht1 : 1 ≤ t := hl t (List.mem_cons_self _ _)
    have hrest : ∀ x ∈ rest, 1 ≤ x := fun x hx => hl x (List.mem_cons_of_mem _ hx)
    have hi' : i < (bumpAt arr (t - 1) 1).length := by
      simpa [bumpAt, List.length_set] using hi
    simp only [List.foldl_cons]
    by_cases hti : t - 1 = i
    · have ht : t = i + 1 := by omega
      have hcnt : (t :: rest).count (i + 1) = rest.count (i + 1) + 1 := by
        simp [ht, List.count_cons]
      have hv : (bumpAt arr (t - 1) 1).getD i 0 = arr.getD i 0 + 1 := by
        rw [show bumpAt arr (t - 1) 1 = arr.set i (i8wrap (arr.getD i 0 + 1)) by
          rw [bumpAt, hti], getD_set_self hi]
        exact i8wrap_eq_self (by omega) (by omega)
      have hrec := ih (bumpAt arr (t - 1) 1) hrest hi'
        (by rw [hv]; omega) (by rw [hv]; rw [hcnt] at hb; push_cast at hb ⊢; omega)
      rw [hrec, hv, hcnt]
      push_cast; ring
    · have ht : t ≠ i + 1 := by omega
      have hcnt : (t :: rest).count (i + 1) = rest.count (i + 1) := by
        simp [List.count_cons, ht]
      have hv : (bumpAt arr (t - 1) 1).getD i 0 = arr.getD i 0 := by
        rw [bumpAt, getD_set_ne hti]
      have hrec := ih (bumpAt arr (t - 1) 1) hrest hi'
        (by rw [hv]; exact h0) (by rw [hv]; rw [hcnt] at hb; exact hb)
      rw [hrec, hv, hcnt]

theorem foldl_bump_sub (l : List ℕ) (arr : List ℤ) (i : ℕ)
    (hl : ∀ t ∈ l, 1 ≤ t) (hi : i < arr.length)
    (hup : arr.getD i 0 ≤ 127) (hlo : -128 ≤ arr.getD i 0 - l.count (i + 1)) :
    (l.foldl (fun a t => bumpAt a (t - 1) (-1)) arr).getD i 0 =
      arr.getD i 0 - l.count (i + 1) := by
  induction l generalizing arr with
  | nil => simp
  | cons t rest ih =>
    have ht1 : 1 ≤ t := hl t (List.mem_cons_self _ _)
    have hrest : ∀ x ∈ rest, 1 ≤ x := fun x hx => hl x (List.mem_cons_of_mem _ hx)
    have hi' : i < (bumpAt arr (t - 1) (-1)).length := by
      simpa [bumpAt, List.length_set] using hi
    simp only [List.foldl_cons]
    by_cases hti : t - 1 = i
    · have ht : t = i + 1 := by omega
      have hcnt : (t :: rest).count (i + 1) = rest.count (i + 1) + 1 := by
        simp [ht, List.count_cons]
      rw [hcnt] at hlo
      have hc0 : (0 : ℤ) ≤ (rest.count (i + 1) : ℤ) := by positivity
      have hv : (bumpAt arr (t - 1) (-1)).getD i 0 = arr.getD i 0 - 1 := by
        rw [show bumpAt arr (t - 1) (-1) = arr.set i (i8wrap (arr.getD i 0 + (-1))) by
          rw [bumpAt, hti], getD_set_self hi]
        rw [show arr.getD i 0 + (-1) = arr.getD i 0 - 1 by ring]
        exact i8wrap_eq_self (by push_cast at hlo; omega) (by omega)
      have hrec := ih (bumpAt arr (t - 1) (-1)) hrest hi'
        (by rw [hv]; omega) (by rw [hv]; push_cast at hlo ⊢; omega)
      rw [hrec, hv, hcnt]
      push_cast; ring
    · have ht : t ≠ i + 1 := by omega
      have hcnt : (t :: rest).count (i + 1) = rest.count (i + 1) := by
        simp [List.count_cons, ht]
      rw [hcnt] at hlo
      have hv : (bumpAt arr (t - 1) (-1)).getD i 0 = arr.getD i 0 := by
        rw [bumpAt, getD_set_ne hti]
      have hrec := ih (bumpAt arr (t - 1) (-1)) hrest hi'
        (by rw [hv]; exact hup) (by rw [hv]; exact hlo)
      rw [hrec, hv, hcnt]

theorem pair_add {arr : List ℤ} {m : Multiset ℕ} {T : ℕ} {l : List ℕ}
    (hlen : arr.length = T)
    (hmatch : ∀ i < T, arr.getD i 0 = m.count (i + 1) ∧ m.count (i + 1) ≤ 127)
    (hok : ∀ t ∈ l, 1 ≤ t ∧ t ≤ T ∧ m.count t + l.count t ≤ 127) :
    (l.foldl (fun a t => bumpAt a (t - 1) 1) arr).length = T ∧
    ∀ i < T,
      (l.foldl (fun a t => bumpAt a (t - 1) 1) arr).getD i 0 = (m + ↑l).count (i + 1) ∧
      (m + ↑l).count (i + 1) ≤ 127 := by
  refine ⟨by rw [length_foldl_bump, hlen], fun i hi => ?_⟩
  have hi' : i < arr.length := by rw [hlen]; exact hi
  have h0 : 0 ≤ arr.getD i 0 := by rw [(hmatch i hi).1]; positivity
  have hb : arr.getD i 0 + (l.count (i + 1) : ℤ) ≤ 127 := by
    by_cases hm : (i + 1) ∈ l
    · have h2 := (hok _ hm).2.2
      rw [(hmatch i hi).1]
      omega
    · rw [List.count_eq_zero_of_not_mem hm, (hmatch i hi).1]
      have := (hmatch i hi).2
      omega
  rw [foldl_bump_add l arr i (fun t ht => (hok t ht).1) hi' h0 hb,
    Multiset.count_add, Multiset.coe_count]
  constructor
  · rw [(hmatch i hi).1]; push_cast; ring
  · have h1 := (hmatch i hi).1
    rw [h1] at hb
    exact_mod_cast hb

theorem pair_sub {arr : List ℤ} {m : Multiset ℕ} {T : ℕ} {l : List ℕ}
    (hlen : arr.length = T)
    (hmatch : ∀ i < T, arr.getD i 0 = m.count (i + 1) ∧ m.count (i + 1) ≤ 127)
    (hok : ∀ t ∈ l, 1 ≤ t ∧ t ≤ T ∧ l.count t ≤ 128) :
    (clampNeg (l.foldl (fun a t => bumpAt a (t - 1) (-1)) arr)).length = T ∧
    ∀ i < T,
      (clampNeg (l.foldl (fun a t => bumpAt a (t - 1) (-1)) arr)).getD i 0 =
        (m - ↑l).count (i + 1) ∧
      (m - ↑l).count (i + 1) ≤ 127 := by
  have hflen : (l.foldl (fun a t => bumpAt a (t - 1) (-1)) arr).length = T := by
    rw [length_foldl_bump, hlen]
  refine ⟨by rw [clampNeg, List.length_map, hflen], fun i hi => ?_⟩
  have hi' : i < arr.length := by rw [hlen]; exact hi
  have hup : arr.getD i 0 ≤ 127 := by
    rw [(hmatch i hi).1]; exact_mod_cast (hmatch i hi).2
  have hlo : -128 ≤ arr.getD i 0 - (l.count (i + 1) : ℤ) := by
    by_cases hm : (i + 1) ∈ l
    · have h2 := (hok _ hm).2.2
      rw [(hmatch i hi).1]
      omega
    · rw [List.count_eq_zero_of_not_mem hm, (hmatch i hi).1]
      omega
  have hval := foldl_bump_sub l arr i (fun t ht => (hok t ht).1) hi' hup hlo
  have hmi : i < (l.foldl (fun a t => bumpAt a (t - 1) (-1)) arr).length := by
    rw [hflen]; exact hi
  rw [clampNeg, getD_map_lt _ _ hmi, hval, (hmatch i hi).1,
    Multiset.count_sub, Multiset.coe_count]
  have hc := (hmatch i hi).2
  constructor
  · have : (↑(m.count (i + 1)) - (l.count (i + 1) : ℤ) < 0) ↔
        m.count (i + 1) < l.count (i + 1) := by omega
    by_cases hcase : m.count (i + 1) < l.count (i + 1)
    · rw [if_pos (this.mpr hcase)]
      have : m.count (i + 1) - l.count (i + 1) = 0 := by omega
      rw [this]; rfl
    · rw [if_neg (fun hx => hcase (this.mp hx))]
      omega
  · omega

theorem getD_replicate_zero (T i : ℕ) : (List.replicate T (0 : ℤ)).getD i 0 = 0 := by
  rcases Nat.lt_or_ge i T with h | h
  · simp [List.getD_eq_getElem?_getD, List.getElem?_replicate, h]
  · rw [List.getD_eq_getElem?_getD, List.getElem?_eq_none (by simpa using h)]
    rfl

theorem stateInv_empty (T : ℕ) : StateInv (emptyState T) := by
  refine ⟨by simp [emptyState], by simp [emptyState], ?_, ?_⟩ <;>
    exact fun i _ => by simp [emptyState, getD_replicate_zero]

theorem applyOp_inv {s : GameStateRep} {op : GOp} (hInv : StateInv s)
    (hok : opOK s op) :
    StateInv (applyOp s op) ∧ (applyOp s op).tileCountF = s.tileCountF := by
  obtain ⟨hrl, htl, hrm, htm⟩ := hInv
  cases op with
  | addR l =>
    by_cases hl : l = []
    · subst hl; exact ⟨⟨hrl, htl, hrm, htm⟩, rfl⟩
    · have h := pair_add hrl hrm hok
      simp only [applyOp, addRack, if_neg hl]
      exact ⟨⟨h.1, htl, h.2, htm⟩, trivial⟩
  | remR l =>
    by_cases hl : l = []
    · subst hl; exact ⟨⟨hrl, htl, hrm, htm⟩, rfl⟩
    · have h := pair_sub hrl hrm hok
      simp only [applyOp, removeRack, if_neg hl]
      exact ⟨⟨h.1, htl, h.2, htm⟩, trivial⟩
  | addT l =>
    by_cases hl : l = []
    · subst hl; exact ⟨⟨hrl, htl, hrm, htm⟩, rfl⟩
    · have h := pair_add htl htm hok
      simp only [applyOp, addTable, if_neg hl]
      exact ⟨⟨hrl, h.1, hrm, h.2⟩, trivial⟩
  | remT l =>
    by_cases hl : l = []
    · subst hl; exact ⟨⟨hrl, htl, hrm, htm⟩, rfl⟩
    · have h := pair_sub htl htm hok
      simp only [applyOp, removeTable, if_neg hl]
      exact ⟨⟨hrl, h.1, hrm, h.2⟩, trivial⟩

theorem foldl_applyOp_inv : ∀ (ops : List GOp) (s : GameStateRep),
    StateInv s → OpsOK s ops →
    StateInv (ops.foldl applyOp s) ∧ (ops.foldl applyOp s).tileCountF = s.tileCountF
  | [], s, hInv, _ => ⟨hInv, rfl⟩
  | op :: rest, s, hInv, hok => by
    have h1 := applyOp_inv hInv hok.1
    have h2 := foldl_applyOp_inv rest (applyOp s op) h1.1 hok.2
    exact ⟨h2.1, by rw [List.foldl_cons, h2.2, h1.2]⟩

/-- C9 (amended): starting from a fresh state, any sequence of
`add_rack` / `remove_rack` / `add_table` / `remove_table` operations whose
tile identifiers are in range and which stays inside the `int8` envelope
(additions keep every per-tile count at most 127; a removal removes at most
128 copies of one tile) keeps the representation invariant: each array cell
equals the multiset count of its tile, so every count in both views is a
non-negative integer; moreover a subsequent removal never errors, saturates
at zero in the multiset view, and the resulting array cell holds the
truncated difference as well. -/
theorem gamestate_count_invariants (T : ℕ) (ops : List GOp)
    (h : OpsOK (emptyState T) ops) :
    StateInv (runOps T ops) ∧
    (∀ i < T, (0 : ℤ) ≤ (runOps T ops).rackArr.getD i 0 ∧
      (0 : ℤ) ≤ (runOps T ops).tableArr.getD i 0) ∧
    (∀ l : List ℕ, (∀ t ∈ l, 1 ≤ t ∧ t ≤ T ∧ l.count t ≤ 128) →
      (applyOp (runOps T ops) (GOp.remR l)).rack = (runOps T ops).rack - ↑l ∧
      (∀ t, ((runOps T ops).rack - ↑l).count t =
        (runOps T ops).rack.count t - l.count t) ∧
      ∀ i < T, (applyOp (runOps T ops) (GOp.remR l)).rackArr.getD i 0 =
        ((runOps T ops).rack.count (i + 1) - l.count (i + 1) : ℕ)) := by
  have hbase := foldl_applyOp_inv ops (emptyState T) (stateInv_empty T) h
  have hT : (runOps T ops).tileCountF = T := hbase.2
  have hInv : StateInv (runOps T ops) := hbase.1
  obtain ⟨hrl, htl, hrm, htm⟩ := hInv
  rw [hT] at hrl htl hrm htm
  refine ⟨⟨by rw [hT]; exact hrl, by rw [hT]; exact htl,
      by rw [hT]; exact hrm, by rw [hT]; exact htm⟩, ?_, ?_⟩
  · intro i hi
    constructor
    · rw [(hrm i hi).1]; positivity
    · rw [(htm i hi).1]; positivity
  · intro l hok
    refine ⟨?_, fun t => by rw [Multiset.count_sub, Multiset.coe_count], ?_⟩
    · by_cases hl : l = []
      · subst hl; simp [applyOp, removeRack]
      · simp [applyOp, removeRack, hl]
    · intro i hi
      by_cases hl : l = []
      · subst hl
        have hid : applyOp (runOps T ops) (GOp.remR ([] : List ℕ)) = runOps T ops := rfl
        rw [hid, (hrm i hi).1]
        simp
      · have h := (pair_sub hrl hrm hok).2 i hi
        simp only [applyOp, removeRack, if_neg hl]
        rw [h.1, Multiset.count_sub, Multiset.coe_count]

/-- C9 witness: adding one copy of tile 1 and then removing two copies is a
sequence inside the envelope; the theorem's invariants hold for it. -/
theorem gamestate_count_invariants_witness :
    OpsOK (emptyState 1) [GOp.addR [1], GOp.remR [1, 1]] ∧
    (StateInv (runOps 1 [GOp.addR [1], GOp.remR [1, 1]]) ∧
      (∀ i < 1, (0 : ℤ) ≤ (runOps 1 [GOp.addR [1], GOp.remR [1, 1]]).rackArr.getD i 0 ∧
        (0 : ℤ) ≤ (runOps 1 [GOp.addR [1], GOp.remR [1, 1]]).tableArr.getD i 0) ∧
      (∀ l : List ℕ, (∀ t ∈ l, 1 ≤ t ∧ t ≤ 1 ∧ l.count t ≤ 128) →
        (applyOp (runOps 1 [GOp.addR [1], GOp.remR [1, 1]]) (GOp.remR l)).rack =
          (runOps 1 [GOp.addR [1], GOp.remR [1, 1]]).rack - ↑l ∧
        (∀ t, ((runOps 1 [GOp.addR [1], GOp.remR [1, 1]]).rack - ↑l).count t =
          (runOps 1 [GOp.addR [1], GOp.remR [1, 1]]).rack.count t - l.count t) ∧
        ∀ i < 1, (applyOp (runOps 1 [GOp.addR [1], GOp.remR [1, 1]]) (GOp.remR l)).rackArr.getD i 0 =
          ((runOps 1 [GOp.addR [1], GOp.remR [1, 1]]).rack.count (i + 1) -
            l.count (i + 1) : ℕ))) :=
  ⟨by decide, gamestate_count_invariants 1 [GOp.addR [1], GOp.remR [1, 1]] (by decide)⟩

set_option maxRecDepth 4000 in
/-- C9 counterexample: adding 128 copies of tile 1 to an empty rack drives
the `int8` array cell to `-128` by wraparound, so the array-view count is
negative, contradicting the claim that every per-tile count stays a
non-negative integer for every operation sequence. -/
theorem gamestate_count_negative_overflow :
    (runOps 1 [GOp.addR (List.replicate 128 1)]).rackArr.getD 0 0 = -128 ∧
    ¬ (0 : ℤ) ≤ (runOps 1 [GOp.addR (List.replicate 128 1)]).rackArr.getD 0 0 := by
  decide

/-! ### RuleSet set enumeration and scoring (ruleset.py)

The enumerators produce lists of candidate sets; `RuleSet.sets` is
`sorted(self._runs() | self._groups())`, i.e. the ascending enumeration of
the union of two Python sets of tuples.  The embedding concatenates the two
generated collections, removes duplicate tuples (`dedup`) and sorts
lexicographically — the same distinct ascending enumeration. -/

/-- Embedding of the base-run generator inside `RuleSet._runs`: for each
colour, each length in `[min_len, 2*min_len)` and each start number in
Python `range(1, numbers - length + 2)`, the contiguous identifier block.
The upper bound is written `numbers + 2 - length` so that truncated `ℕ`
subtraction agrees with the (possibly negative) Python bound: both yield an
empty range whenever `length > numbers + 1`. -/
def runBases (cfg : RuleConfig) : List (List ℕ) :=
  (List.range cfg.colours).flatMap fun c =>
    (pyRange cfg.min_len (cfg.min_len * 2)).flatMap fun len =>
      (pyRange 1 (cfg.numbers + 2 - len)).map fun num =>
        pyRange (cfg.numbers * c + num) (cfg.numbers * c + num + len)

/-- Embedding of the group generator inside `RuleSet._groups`: the full
group for face `num` is Python `range(num, numbers*colours + 1, numbers)`,
which for `1 ≤ num ≤ numbers` has exactly `colours` elements
`num, num + numbers, …`; each length-`len` combination of it is kept. -/
def groupBases (cfg : RuleConfig) : List (List ℕ) :=
  (pyRange 1 (cfg.numbers + 1)).flatMap fun num =>
    (pyRange cfg.min_len (cfg.colours + 1)).flatMap fun len =>
      List.sublistsLen len (List.range' num cfg.colours cfg.numbers)

/-- Embedding of `RuleSet._combine_with_jokers`.  Without a joker the bases
pass through unchanged.  With joker `j`: a base of exactly minimum length is
replaced by every same-length combination drawn from the base plus `jokers`
copies of `j`; a longer run keeps its two end tiles and combines the
interior with the jokers; a longer group is emitted as-is.  (The source
accesses `s[0]`/`s[-1]` only for longer runs, which are never empty; the
`headI`/`getLastI` defaults are therefore never exercised.) -/
def combineJokers (cfg : RuleConfig) (isRun : Bool) (bases : List (List ℕ)) :
    List (List ℕ) :=
  match jokerOf cfg with
  | none => bases
  | some j =>
      let js := List.replicate cfg.jokers j
      bases.flatMap fun s =>
        if s.length = cfg.min_len then List.sublistsLen s.length (s ++ js)
        else if isRun then
          (List.sublistsLen (s.length - 2) ((s.drop 1).dropLast ++ js)).map
            fun c => s.headI :: (c ++ [s.getLastI])
        else [s]

/-- All generated candidate sets: `self._runs() | self._groups()` before
deduplication. -/
def allSets (cfg : RuleConfig) : List (List ℕ) :=
  combineJokers cfg true (runBases cfg) ++ combineJokers cfg false (groupBases cfg)

/-- Embedding of `RuleSet.sets`: the deduplicated collection sorted
lexicographically (Python tuple comparison is the lexicographic order on
`List ℕ`). -/
def setsList (cfg : RuleConfig) : List (List ℕ) :=
  List.insertionSort (· ≤ ·) (allSets cfg).dedup

/-- Value added to row `i` of the run-length value table at position `m`:
the `m`-th element of Python `chain(range(i, n + 1), repeat(n - i))`, namely
`i + m` while `i + m ≤ n` and the (possibly negative) constant `n - i`
afterwards. -/
def rlTerm (n i m : ℕ) : ℤ := if i + m ≤ n then (i + m : ℤ) else (n : ℤ) - (i : ℤ)

/-- Row `i` of the run-length value table of `RuleSet.setvalues`: row 0 is
`[0] * (n + 1)` and each following row adds `rlTerm` pointwise (`zip`
truncates the infinite chain at `n + 1` entries). -/
def rlRow (n : ℕ) : ℕ → List ℤ
  | 0 => List.replicate (n + 1) 0
  | i + 1 => List.zipWith (· + ·) (rlRow n i) ((List.range (n + 1)).map fun m => rlTerm n i m)

/-- The table `rlvalues` of `RuleSet.setvalues`: rows `0 … 2*min_len - 1`. -/
def rlvalues (cfg : RuleConfig) : List (List ℤ) :=
  (List.range (cfg.min_len * 2)).map (rlRow cfg.numbers)

/-- Entry `rlvalues[l][m]` (both indexings in the source are always in
range; the embedding totalises them with `getD`). -/
def rlAt (cfg : RuleConfig) (l m : ℕ) : ℤ := ((rlvalues cfg).getD l []).getD m 0

/-- Non-joker tiles of a set, in tuple order (the generator
`(… for t in s if t != joker)` keeps all tiles when there is no joker). -/
def njList (cfg : RuleConfig) (s : List ℕ) : List ℕ :=
  match jokerOf cfg with
  | none => s
  | some j => s.filter fun t => t ≠ j

/-- Face value of tile `t`: `(t - 1) % n + 1`. -/
def face (n t : ℕ) : ℕ := (t - 1) % n + 1

/-- Face values of the non-joker tiles of a set, in tuple order. -/
def njFaces (cfg : RuleConfig) (s : List ℕ) : List ℕ :=
  (njList cfg s).map (face cfg.numbers)

/-- Embedding of the `_calc` closure of `RuleSet.setvalues`: compare the
first two non-joker faces; equal means a group (`len(s) * n0`), different
means a run (`rlvalues[len(s)][n0]`); with a single non-joker face the
maximum of both readings is used.  With no non-joker face at all the source
raises an uncaught `StopIteration` (`n0 = next(nums)` sits outside the
`try`), embedded as `none`. -/
def calcSet (cfg : RuleConfig) (s : List ℕ) : Option ℤ :=
  match njFaces cfg s with
  | [] => none
  | [n0] => some (max ((s.length : ℤ) * n0) (rlAt cfg s.length n0))
  | n0 :: n1 :: _ => some (if n0 = n1 then (s.length : ℤ) * n0 else rlAt cfg s.length n0)

/-- Set-value vector consumed by the INITIAL problem template
(`np.array(ruleset.setvalues)`), totalised over indices. -/
def setValueAt (cfg : RuleConfig) (i : ℕ) : ℤ :=
  (calcSet cfg ((setsList cfg).getD i [])).getD 0

/-- All elements of a list are equal to one another. -/
def AllSame (l : List ℕ) : Prop := ∀ x ∈ l, ∀ y ∈ l, x = y

instance (l : List ℕ) : Decidable (AllSame l) := by
  unfold AllSame; infer_instance

/-- Embedding of `RuleSet.__init__` (ruleset.py lines 15-37).  The
constructor stores its parameters, derives `tile_count` and `joker`, and
then builds `RummikubSolver(self)` (line 37), which eagerly materialises
`ruleset.sets` and `ruleset.setvalues` (solver.py lines 88-99 and 159).  No
parameter validation happens anywhere, so the only failure path of
construction is the uncaught `StopIteration` that `setvalues` raises when
some enumerated set consists entirely of jokers (`calcSet` is `none`).
Backend discovery (`next(d for d in DEFAULT_MILP_BACKENDS if d in
supported)`) depends on which solver packages are installed; the embedding
assumes a usable backend is present (its absence is the spec's
environmental `BackendUnavailable`). -/
def rulesetInit (cfg : RuleConfig) : Except PyErr RuleSetRep :=
  if (setsList cfg).all fun s => (calcSet cfg s).isSome then
    Except.ok
      { numbers := cfg.numbers
        repeats := cfg.repeats
        colours := cfg.colours
        jokers := cfg.jokers
        min_len := cfg.min_len
        min_initial_value := cfg.min_initial_value
        tile_count := tileCount cfg
        joker := jokerOf cfg }
  else Except.error PyErr.stopIteration

/-- C1 counterexample: with the default legal configuration
`(N, R, C, J, L, V) = (13, 2, 4, 2, 3, 30)` the table violates the claimed
recurrence at `ℓ = 2`, `m = 12`: `rlvalues[3][12] = 36` (the run
`(j, 12, 13)` scored as `11 + 12 + 13`), while the claim demands
`rlvalues[2][12] + min(12 + 2, 13) = 25 + 13 = 38`. -/
theorem rl_recurrence_counterexample :
    rlAt ⟨13, 2, 4, 2, 3, 30⟩ 3 12 = 36 ∧
    rlAt ⟨13, 2, 4, 2, 3, 30⟩ 2 12 + min ((12 : ℤ) + 2) 13 = 38 ∧
    ¬ rlAt ⟨13, 2, 4, 2, 3, 30⟩ 3 12 =
        rlAt ⟨13, 2, 4, 2, 3, 30⟩ 2 12 + min ((12 : ℤ) + 2) 13 := by
  decide

/-! ### Canonical shape of generated sets

Every tuple emitted by the enumerators has its non-joker tiles in strictly
ascending order and its jokers in a fixed position (at the end for
minimum-length sets, before the final tile for longer runs).  Consequently a
tuple is determined by its multiset of identifiers, which is what makes the
tuple-level deduplication of the Python `set` a multiset-level
deduplication. -/

theorem mem_pyRange {a b m : ℕ} : m ∈ pyRange a b ↔ a ≤ m ∧ m < b := by
  unfold pyRange
  rw [List.mem_range']
  constructor
  · rintro ⟨i, hi, rfl⟩; omega
  · intro h; exact ⟨m - a, by omega, by omega⟩

theorem pyRange_eq_range' (a len : ℕ) : pyRange a (a + len) = List.range' a len := by
  unfold pyRange; congr 1; omega

theorem pairwise_lt_range' (s n step : ℕ) (h : 0 < step) :
    List.Pairwise (· < ·) (List.range' s n step) := by
  cases n with
  | zero => simp
  | succ n =>
    rw [List.range'_succ]
    exact List.chain_iff_pairwise.mp (List.chain_lt_range' s n h)

theorem mem_range'_bounds {s n x : ℕ} (hx : x ∈ List.range' s n) :
    s ≤ x ∧ x < s + n := by
  rw [List.mem_range'] at hx
  obtain ⟨i, hi, rfl⟩ := hx
  omega

theorem face_block {n c v : ℕ} (h1 : 1 ≤ v) (h2 : v ≤ n) :
    face n (n * c + v) = v := by
  unfold face
  have hv : n * c + v - 1 = n * c + (v - 1) := by omega
  rw [hv, Nat.mul_add_mod, Nat.mod_eq_of_lt (by omega)]
  omega

theorem face_block_sub {n c x : ℕ} (h1 : n * c + 1 ≤ x) (h2 : x ≤ n * c + n) :
    face n x = x - n * c := by
  have hx : x = n * c + (x - n * c) := by omega
  rw [hx, face_block (by omega) (by omega)]
  omega

theorem face_group_elem {n i v : ℕ} (h1 : 1 ≤ v) (h2 : v ≤ n) :
    face n (v + n * i) = v := by
  unfold face
  have hv : v + n * i - 1 = n * i + (v - 1) := by omega
  rw [hv, Nat.mul_add_mod, Nat.mod_eq_of_lt (by omega)]
  omega

theorem combo_split {base : List ℕ} {J j k : ℕ} {g : List ℕ}
    (hg : g ∈ List.sublistsLen k (base ++ List.replicate J j)) :
    ∃ u kj, g = u ++ List.replicate kj j ∧ u.Sublist base ∧
      u.length + kj = k ∧ kj ≤ J := by
  rw [List.mem_sublistsLen] at hg
  obtain ⟨hsub, hlen⟩ := hg
  rw [List.sublist_append_iff] at hsub
  obtain ⟨u, v, rfl, hu, hv⟩ := hsub
  rw [List.sublist_replicate_iff] at hv
  obtain ⟨kj, hkj, rfl⟩ := hv
  exact ⟨u, kj, rfl, hu, by simpa using hlen, hkj⟩

theorem njList_joker (cfg : RuleConfig) {j : ℕ} (hj : jokerOf cfg = some j)
    (g : List ℕ) : njList cfg g = g.filter fun t => t ≠ j := by
  unfold njList; rw [hj]

theorem filter_ne_of_all_lt {j : ℕ} {u : List ℕ} (hu : ∀ x ∈ u, x < j) :
    (u.filter fun t => t ≠ j) = u :=
  List.filter_eq_self.mpr fun a ha => by
    simpa using Nat.ne_of_lt (hu a ha)

theorem filter_ne_replicate (j kj : ℕ) :
    ((List.replicate kj j).filter fun t => t ≠ j) = [] :=
  List.filter_eq_nil_iff.mpr fun a ha => by
    simp [List.eq_of_mem_replicate ha]

theorem count_of_all_lt {j : ℕ} {u : List ℕ} (hu : ∀ x ∈ u, x < j) :
    u.count j = 0 :=
  List.count_eq_zero.mpr fun hmem => lt_irrefl j (hu j hmem)

/-- Canonical form of a generated tuple, computed from data invariant under
permutation (length, joker count, multiset of non-jokers).  This is a proof
device, not code from the source. -/
def canonSet (cfg : RuleConfig) (g : List ℕ) : List ℕ :=
  match jokerOf cfg with
  | none => List.insertionSort (· ≤ ·) g
  | some j =>
      let nj := List.insertionSort (· ≤ ·) (njList cfg g)
      let k := g.count j
      if g.length = cfg.min_len then nj ++ List.replicate k j
      else if k = 0 then nj
      else nj.headI :: ((nj.drop 1).dropLast ++ List.replicate k j) ++ [nj.getLastI]

theorem canonSet_congr (cfg : RuleConfig) {g h : List ℕ} (p : g.Perm h) :
    canonSet cfg g = canonSet cfg h := by
  unfold canonSet
  cases hj : jokerOf cfg with
  | none => exact insertionSort_congr _ p
  | some j =>
    have hnj : (njList cfg g).Perm (njList cfg h) := by
      rw [njList_joker cfg hj, njList_joker cfg hj]
      exact p.filter _
    simp only [insertionSort_congr _ hnj, p.length_eq, p.count_eq]

theorem canonSet_none {cfg : RuleConfig} (hj : jokerOf cfg = none) (g : List ℕ) :
    canonSet cfg g = List.insertionSort (· ≤ ·) g := by
  unfold canonSet; rw [hj]

theorem canonSet_some {cfg : RuleConfig} {j : ℕ} (hj : jokerOf cfg = some j)
    (g : List ℕ) :
    canonSet cfg g =
      if g.length = cfg.min_len then
        List.insertionSort (· ≤ ·) (njList cfg g) ++ List.replicate (g.count j) j
      else if g.count j = 0 then List.insertionSort (· ≤ ·) (njList cfg g)
      else (List.insertionSort (· ≤ ·) (njList cfg g)).headI ::
        (((List.insertionSort (· ≤ ·) (njList cfg g)).drop 1).dropLast ++
          List.replicate (g.count j) j) ++
        [(List.insertionSort (· ≤ ·) (njList cfg g)).getLastI] := by
  unfold canonSet; rw [hj]

theorem sorted_le_of_lt {l : List ℕ} (h : List.Pairwise (· < ·) l) :
    List.Sorted (· ≤ ·) l := h.imp fun hab => le_of_lt hab

theorem canonSet_fix_none {cfg : RuleConfig} (hj : jokerOf cfg = none) {g : List ℕ}
    (h : List.Pairwise (· < ·) g) : canonSet cfg g = g := by
  rw [canonSet_none hj, List.Sorted.insertionSort_eq (sorted_le_of_lt h)]

theorem canonSet_fix_sorted_nojokers {cfg : RuleConfig} {j : ℕ}
    (hj : jokerOf cfg = some j) {g : List ℕ}
    (hs : List.Pairwise (· < ·) g) (hlt : ∀ x ∈ g, x < j) :
    canonSet cfg g = g := by
  rw [canonSet_some hj]
  have hnj : njList cfg g = g := by
    rw [njList_joker cfg hj]; exact filter_ne_of_all_lt hlt
  have hcnt : g.count j = 0 := count_of_all_lt hlt
  rw [hnj, hcnt, List.Sorted.insertionSort_eq (sorted_le_of_lt hs)]
  by_cases hl : g.length = cfg.min_len
  · rw [if_pos hl]; simp
  · rw [if_neg hl, if_pos rfl]

theorem canonSet_fix_minlen {cfg : RuleConfig} {j : ℕ} (hj : jokerOf cfg = some j)
    {u : List ℕ} {kj : ℕ}
    (hs : List.Pairwise (· < ·) u) (hlt : ∀ x ∈ u, x < j)
    (hlen : (u ++ List.replicate kj j).length = cfg.min_len) :
    canonSet cfg (u ++ List.replicate kj j) = u ++ List.replicate kj j := by
  rw [canonSet_some hj]
  have hnj : njList cfg (u ++ List.replicate kj j) = u := by
    rw [njList_joker cfg hj, List.filter_append, filter_ne_of_all_lt hlt,
      filter_ne_replicate, List.append_nil]
  have hcnt : (u ++ List.replicate kj j).count j = kj := by
    rw [List.count_append, count_of_all_lt hlt, List.count_replicate]
    simp
  rw [hnj, hcnt, if_pos hlen, List.Sorted.insertionSort_eq (sorted_le_of_lt hs)]

theorem canonSet_fix_longrun {cfg : RuleConfig} {j : ℕ} (hj : jokerOf cfg = some j)
    {a b : ℕ} {u : List ℕ} {kj : ℕ}
    (hs : List.Pairwise (· < ·) (a :: (u ++ [b])))
    (hlt : ∀ x ∈ a :: (u ++ [b]), x < j)
    (hlen : (a :: (u ++ List.replicate kj j) ++ [b]).length ≠ cfg.min_len) :
    canonSet cfg (a :: (u ++ List.replicate kj j) ++ [b]) =
      a :: (u ++ List.replicate kj j) ++ [b] := by
  have ha : a < j := hlt a (List.mem_cons_self _ _)
  have hb : b < j := hlt b (by simp)
  have hu : ∀ x ∈ u, x < j := fun x hx => hlt x (by simp [hx])
  have hnj : njList cfg (a :: (u ++ List.replicate kj j) ++ [b]) = a :: (u ++ [b]) := by
    rw [njList_joker cfg hj]
    have hfa : (decide (a ≠ j)) = true := by simpa using Nat.ne_of_lt ha
    have hfb : ([b].filter fun t => t ≠ j) = [b] :=
      filter_ne_of_all_lt fun x hx => by
        rw [List.mem_singleton] at hx; exact hx ▸ hb
    simp only [List.filter_cons, hfa, List.filter_append,
      filter_ne_of_all_lt hu, filter_ne_replicate, hfb, if_pos]
    simp
  have hcnt : (a :: (u ++ List.replicate kj j) ++ [b]).count j = kj := by
    have h1 : [b].count j = 0 :=
      count_of_all_lt fun x hx => by
        rw [List.mem_singleton] at hx; exact hx ▸ hb
    have hane : a ≠ j := Nat.ne_of_lt ha
    simp only [List.count_cons, List.count_append, count_of_all_lt hu,
      List.count_replicate, h1]
    simp [hane]
  have hsort : List.insertionSort (· ≤ ·) (a :: (u ++ [b])) = a :: (u ++ [b]) :=
    List.Sorted.insertionSort_eq (sorted_le_of_lt hs)
  have hlast : (a :: (u ++ [b])).getLastI = b := by
    rw [List.getLastI_eq_getLast?]
    have hsplit : a :: (u ++ [b]) = (a :: u) ++ [b] := by simp
    rw [hsplit, List.getLast?_concat]
  rw [canonSet_some hj, if_neg hlen, hnj, hcnt, hsort]
  by_cases hk : kj = 0
  · rw [if_pos hk]
    subst hk
    simp
  · rw [if_neg hk]
    simp only [List.headI, List.drop_succ_cons, List.drop_zero,
      List.dropLast_concat, hlast]

theorem jokerOf_some_val {cfg : RuleConfig} {j : ℕ} (hj : jokerOf cfg = some j) :
    j = cfg.numbers * cfg.colours + 1 := by
  unfold jokerOf at hj
  by_cases h : cfg.jokers ≠ 0
  · rw [if_pos h] at hj; exact (Option.some.inj hj).symm
  · rw [if_neg h] at hj; exact Option.noConfusion hj

theorem njList_none {cfg : RuleConfig} (hj : jokerOf cfg = none) (g : List ℕ) :
    njList cfg g = g := by
  unfold njList; rw [hj]

theorem njList_append_replicate {cfg : RuleConfig} {j : ℕ}
    (hj : jokerOf cfg = some j) {u : List ℕ} {kj : ℕ}
    (hlt : ∀ x ∈ u, x < j) :
    njList cfg (u ++ List.replicate kj j) = u := by
  rw [njList_joker cfg hj, List.filter_append, filter_ne_of_all_lt hlt,
    filter_ne_replicate, List.append_nil]

theorem njList_longrun {cfg : RuleConfig} {j : ℕ} (hj : jokerOf cfg = some j)
    {a b kj : ℕ} {u : List ℕ}
    (ha : a < j) (hb : b < j) (hu : ∀ x ∈ u, x < j) :
    njList cfg (a :: (u ++ List.replicate kj j) ++ [b]) = a :: (u ++ [b]) := by
  rw [njList_joker cfg hj]
  have hfa : (decide (a ≠ j)) = true := by simpa using Nat.ne_of_lt ha
  have hfb : ([b].filter fun t => t ≠ j) = [b] :=
    filter_ne_of_all_lt fun x hx => by
      rw [List.mem_singleton] at hx; exact hx ▸ hb
  simp only [List.filter_cons, hfa, List.filter_append,
    filter_ne_of_all_lt hu, filter_ne_replicate, hfb, if_pos]
  simp

theorem mem_runBases {cfg : RuleConfig} {s : List ℕ} (hs : s ∈ runBases cfg) :
    ∃ c num len, c < cfg.colours ∧ 1 ≤ num ∧ num + len ≤ cfg.numbers + 1 ∧
      cfg.min_len ≤ len ∧ len < cfg.min_len * 2 ∧
      s = List.range' (cfg.numbers * c + num) len := by
  unfold runBases at hs
  simp only [List.mem_flatMap, List.mem_map, List.mem_range, mem_pyRange] at hs
  obtain ⟨c, hc, len, ⟨hl1, hl2⟩, num, ⟨hn1, hn2⟩, rfl⟩ := hs
  exact ⟨c, num, len, hc, hn1, by omega, hl1, hl2, pyRange_eq_range' _ len⟩

theorem mem_groupBases {cfg : RuleConfig} {s : List ℕ} (hs : s ∈ groupBases cfg) :
    ∃ num len, 1 ≤ num ∧ num ≤ cfg.numbers ∧ cfg.min_len ≤ len ∧
      len ≤ cfg.colours ∧ s.length = len ∧
      s.Sublist (List.range' num cfg.colours cfg.numbers) := by
  unfold groupBases at hs
  simp only [List.mem_flatMap, mem_pyRange, List.mem_sublistsLen] at hs
  obtain ⟨num, ⟨hn1, hn2⟩, len, ⟨hl1, hl2⟩, hsub, hslen⟩ := hs
  exact ⟨num, len, hn1, by omega, hl1, by omega, hslen, hsub⟩

theorem run_block_bounds {cfg : RuleConfig} {c num len : ℕ} {v : List ℕ}
    (hnum : 1 ≤ num) (hlen : num + len ≤ cfg.numbers + 1)
    (hsub : v.Sublist (List.range' (cfg.numbers * c + num) len)) :
    ∀ x ∈ v, cfg.numbers * c + 1 ≤ x ∧ x ≤ cfg.numbers * c + cfg.numbers := by
  intro x hx
  have := mem_range'_bounds (hsub.subset hx)
  omega

theorem faces_pairwise_run {cfg : RuleConfig} {c num len : ℕ} {v : List ℕ}
    (hnum : 1 ≤ num) (hlen : num + len ≤ cfg.numbers + 1)
    (hsub : v.Sublist (List.range' (cfg.numbers * c + num) len)) :
    List.Pairwise (· < ·) (v.map (face cfg.numbers)) := by
  rw [List.pairwise_map]
  have hbound := run_block_bounds hnum hlen hsub
  have hp : List.Pairwise (· < ·) v :=
    List.Pairwise.sublist hsub (pairwise_lt_range' _ _ 1 one_pos)
  refine hp.imp_of_mem ?_
  intro x y hx hy hxy
  have h1 := hbound x hx
  have h2 := hbound y hy
  rw [face_block_sub h1.1 h1.2, face_block_sub h2.1 h2.2]
  omega

theorem faces_allsame_group {cfg : RuleConfig} {num : ℕ} {v : List ℕ}
    (hn1 : 1 ≤ num) (hn2 : num ≤ cfg.numbers)
    (hsub : v.Sublist (List.range' num cfg.colours cfg.numbers)) :
    AllSame (v.map (face cfg.numbers)) := by
  have hface : ∀ x ∈ v, face cfg.numbers x = num := by
    intro x hx
    have hmem := hsub.subset hx
    rw [List.mem_range'] at hmem
    obtain ⟨i, hi, rfl⟩ := hmem
    exact face_group_elem hn1 hn2
  intro x hx y hy
  rw [List.mem_map] at hx hy
  obtain ⟨x', hx', rfl⟩ := hx
  obtain ⟨y', hy', rfl⟩ := hy
  rw [hface x' hx', hface y' hy']

theorem group_elem_le {cfg : RuleConfig} {num : ℕ} (hn2 : num ≤ cfg.numbers)
    {x : ℕ} (hx : x ∈ List.range' num cfg.colours cfg.numbers) :
    x ≤ cfg.numbers * cfg.colours := by
  rw [List.mem_range'] at hx
  obtain ⟨i, hi, rfl⟩ := hx
  have h1 : cfg.numbers * (i + 1) ≤ cfg.numbers * cfg.colours :=
    Nat.mul_le_mul_left _ (by omega)
  have h2 : cfg.numbers * (i + 1) = cfg.numbers + cfg.numbers * i := by ring
  omega

theorem combineJokers_none {cfg : RuleConfig} (hj : jokerOf cfg = none)
    (isRun : Bool) (bases : List (List ℕ)) :
    combineJokers cfg isRun bases = bases := by
  unfold combineJokers; rw [hj]

theorem combineJokers_some {cfg : RuleConfig} {j : ℕ} (hj : jokerOf cfg = some j)
    (isRun : Bool) (bases : List (List ℕ)) :
    combineJokers cfg isRun bases = bases.flatMap fun s =>
      if s.length = cfg.min_len then
        List.sublistsLen s.length (s ++ List.replicate cfg.jokers j)
      else if isRun then
        (List.sublistsLen (s.length - 2)
          ((s.drop 1).dropLast ++ List.replicate cfg.jokers j)).map
          fun c => s.headI :: (c ++ [s.getLastI])
      else [s] := by
  unfold combineJokers; rw [hj]

theorem range'_decomp {st m : ℕ} :
    List.range' st (m + 2) =
      st :: (List.range' (st + 1) m ++ [st + (m + 1)]) := by
  rw [show m + 2 = (m + 1) + 1 from rfl, List.range'_succ]
  congr 1
  rw [List.range'_concat]
  congr 2
  omega

theorem canonSet_fix_runlong_aux {cfg : RuleConfig} {j st len : ℕ}
    (hjc : jokerOf cfg = some j) (hlen2 : 2 ≤ len)
    (hltj : ∀ x ∈ List.range' st len, x < j)
    (hmin : (List.range' st len).length ≠ cfg.min_len)
    {g : List ℕ}
    (hgin : g ∈ (List.sublistsLen ((List.range' st len).length - 2)
      (((List.range' st len).drop 1).dropLast ++ List.replicate cfg.jokers j)).map
      fun c => (List.range' st len).headI :: (c ++ [(List.range' st len).getLastI])) :
    canonSet cfg g = g ∧
      ∃ v, njList cfg g = v ∧ v.Sublist (List.range' st len) ∧ v ≠ [] := by
  obtain ⟨m, rfl⟩ : ∃ m, len = m + 2 := ⟨len - 2, by omega⟩
  have hdecomp := @range'_decomp st m
  have hsp : List.Pairwise (· < ·) (List.range' st (m + 2)) :=
    pairwise_lt_range' _ _ 1 one_pos
  have hslen : (List.range' st (m + 2)).length = m + 2 := List.length_range' _ _ _
  have hhead : (List.range' st (m + 2)).headI = st := by rw [hdecomp]; rfl
  have hdrop : ((List.range' st (m + 2)).drop 1).dropLast = List.range' (st + 1) m := by
    rw [hdecomp]
    simp [List.dropLast_concat]
  have hlastI : (List.range' st (m + 2)).getLastI = st + (m + 1) := by
    rw [hdecomp, List.getLastI_eq_getLast?]
    have hsplit : st :: (List.range' (st + 1) m ++ [st + (m + 1)]) =
        (st :: List.range' (st + 1) m) ++ [st + (m + 1)] := by simp
    rw [hsplit, List.getLast?_concat]
  rw [List.mem_map] at hgin
  obtain ⟨c', hc', rfl⟩ := hgin
  rw [hslen, hdrop] at hc'
  have hmm : m + 2 - 2 = m := by omega
  rw [hmm] at hc'
  obtain ⟨u, kj, rfl, husub, hulen, hkjJ⟩ := combo_split hc'
  rw [hhead, hlastI]
  have hsub2 : (st :: (u ++ [st + (m + 1)])).Sublist (List.range' st (m + 2)) := by
    rw [hdecomp]
    exact List.Sublist.cons₂ _ (List.Sublist.append husub (List.Sublist.refl _))
  have hp2 : List.Pairwise (· < ·) (st :: (u ++ [st + (m + 1)])) :=
    List.Pairwise.sublist hsub2 hsp
  have hlt2 : ∀ x ∈ st :: (u ++ [st + (m + 1)]), x < j :=
    fun x hx => hltj x (hsub2.subset hx)
  have hglen : (st :: (u ++ List.replicate kj j) ++ [st + (m + 1)]).length ≠
      cfg.min_len := by
    rw [hslen] at hmin
    simp only [List.length_cons, List.length_append, List.length_replicate,
      List.length_nil]
    omega
  refine ⟨canonSet_fix_longrun hjc hp2 hlt2 hglen, st :: (u ++ [st + (m + 1)]), ?_,
    hsub2, by simp⟩
  exact njList_longrun hjc (hlt2 st (List.mem_cons_self _ _))
    (hlt2 _ (by simp)) (fun x hx => hlt2 x (by simp [hx]))

theorem allSets_struct {cfg : RuleConfig} (hL : LegalConfig cfg) {g : List ℕ}
    (hg : g ∈ allSets cfg) :
    canonSet cfg g = g ∧
      (List.Pairwise (· < ·) (njFaces cfg g) ∨ AllSame (njFaces cfg g)) := by
  obtain ⟨hn2, hn26, hr1, hr4, hc2, hc8, hj4, hml2, hml6, hv1, hv50, hmlc, hmln⟩ := hL
  unfold allSets at hg
  rw [List.mem_append] at hg
  cases hg with
  | inl hgr =>
    cases hjc : jokerOf cfg with
    | none =>
      rw [combineJokers_none hjc] at hgr
      obtain ⟨c, num, len, hc, h1, hnl, hl1, hl2, rfl⟩ := mem_runBases hgr
      have hp : List.Pairwise (· < ·) (List.range' (cfg.numbers * c + num) len) :=
        pairwise_lt_range' _ _ 1 one_pos
      refine ⟨canonSet_fix_none hjc hp, Or.inl ?_⟩
      unfold njFaces
      rw [njList_none hjc]
      exact faces_pairwise_run h1 hnl (List.Sublist.refl _)
    | some j =>
      rw [combineJokers_some hjc, List.mem_flatMap] at hgr
      obtain ⟨s, hs, hgin⟩ := hgr
      obtain ⟨c, num, len, hc, h1, hnl, hl1, hl2, rfl⟩ := mem_runBases hs
      have hjval := jokerOf_some_val hjc
      have hsp : List.Pairwise (· < ·) (List.range' (cfg.numbers * c + num) len) :=
        pairwise_lt_range' _ _ 1 one_pos
      have hltj : ∀ x ∈ List.range' (cfg.numbers * c + num) len, x < j := by
        intro x hx
        have hb := mem_range'_bounds hx
        have hm1 : cfg.numbers * (c + 1) ≤ cfg.numbers * cfg.colours :=
          Nat.mul_le_mul_left _ (by omega)
        have hm2 : cfg.numbers * (c + 1) = cfg.numbers * c + cfg.numbers := by ring
        omega
      by_cases hmin : (List.range' (cfg.numbers * c + num) len).length = cfg.min_len
      · rw [if_pos hmin] at hgin
        obtain ⟨u, kj, rfl, husub, hulen, hkjJ⟩ := combo_split hgin
        have hup : List.Pairwise (· < ·) u := List.Pairwise.sublist husub hsp
        have hultj : ∀ x ∈ u, x < j := fun x hx => hltj x (husub.subset hx)
        have hglen : (u ++ List.replicate kj j).length = cfg.min_len := by
          rw [List.length_append, List.length_replicate, hulen]
          exact hmin
        refine ⟨canonSet_fix_minlen hjc hup hultj hglen, Or.inl ?_⟩
        unfold njFaces
        rw [njList_append_replicate hjc hultj]
        exact faces_pairwise_run h1 hnl husub
      · rw [if_neg hmin, if_pos rfl] at hgin
        have hlen2 : 2 ≤ len := by omega
        obtain ⟨hcanon, v, hv, hvsub, -⟩ :=
          canonSet_fix_runlong_aux hjc hlen2 hltj hmin hgin
        refine ⟨hcanon, Or.inl ?_⟩
        unfold njFaces
        rw [hv]
        exact faces_pairwise_run h1 hnl hvsub
  | inr hgg =>
    cases hjc : jokerOf cfg with
    | none =>
      rw [combineJokers_none hjc] at hgg
      obtain ⟨num, len, h1, hn, hl1, hl2, hslen, hsub⟩ := mem_groupBases hgg
      have hp : List.Pairwise (· < ·) g :=
        List.Pairwise.sublist hsub (pairwise_lt_range' _ _ _ (by omega))
      refine ⟨canonSet_fix_none hjc hp, Or.inr ?_⟩
      unfold njFaces
      rw [njList_none hjc]
      exact faces_allsame_group h1 hn hsub
    | some j =>
      rw [combineJokers_some hjc, List.mem_flatMap] at hgg
      obtain ⟨s, hs, hgin⟩ := hgg
      obtain ⟨num, len, h1, hn, hl1, hl2, hslen, hsub⟩ := mem_groupBases hs
      have hjval := jokerOf_some_val hjc
      have hsp : List.Pairwise (· < ·) s :=
        List.Pairwise.sublist hsub (pairwise_lt_range' _ _ _ (by omega))
      have hltj : ∀ x ∈ s, x < j := by
        intro x hx
        have := group_elem_le hn (hsub.subset hx)
        omega
      by_cases hmin : s.length = cfg.min_len
      · rw [if_pos hmin] at hgin
        obtain ⟨u, kj, rfl, husub, hulen, hkjJ⟩ := combo_split hgin
        have hup : List.Pairwise (· < ·) u := List.Pairwise.sublist husub hsp
        have hultj : ∀ x ∈ u, x < j := fun x hx => hltj x (husub.subset hx)
        have hglen : (u ++ List.replicate kj j).length = cfg.min_len := by
          rw [List.length_append, List.length_replicate, hulen]
          exact hmin
        refine ⟨canonSet_fix_minlen hjc hup hultj hglen, Or.inr ?_⟩
        unfold njFaces
        rw [njList_append_replicate hjc hultj]
        exact faces_allsame_group h1 hn (husub.trans hsub)
      · rw [if_neg hmin, if_neg (by simp)] at hgin
        rw [List.mem_singleton] at hgin
        subst hgin
        refine ⟨canonSet_fix_sorted_nojokers hjc hsp hltj, Or.inr ?_⟩
        unfold njFaces
        rw [njList_joker cfg hjc, filter_ne_of_all_lt hltj]
        exact faces_allsame_group h1 hn hsub

theorem allSets_njFaces_ne_nil {cfg : RuleConfig} (hjm : cfg.jokers < cfg.min_len)
    {g : List ℕ} (hg : g ∈ allSets cfg) : njFaces cfg g ≠ [] := by
  have hml1 : 1 ≤ cfg.min_len := by omega
  unfold allSets at hg
  rw [List.mem_append] at hg
  rcases hg with hgr | hgg
  · cases hjc : jokerOf cfg with
    | none =>
      rw [combineJokers_none hjc] at hgr
      obtain ⟨c, num, len, hc, h1, hnl, hl1, hl2, rfl⟩ := mem_runBases hgr
      unfold njFaces
      rw [njList_none hjc]
      intro hcon
      have hlen0 : len = 0 := by
        simpa [List.length_range'] using congrArg List.length hcon
      omega
    | some j =>
      have hj0 : cfg.jokers ≠ 0 := by
        intro hz
        unfold jokerOf at hjc
        rw [if_neg (fun hne => hne hz)] at hjc
        exact Option.noConfusion hjc
      have hml2 : 2 ≤ cfg.min_len := by omega
      rw [combineJokers_some hjc, List.mem_flatMap] at hgr
      obtain ⟨s, hs, hgin⟩ := hgr
      obtain ⟨c, num, len, hc, h1, hnl, hl1, hl2, rfl⟩ := mem_runBases hs
      have hjval := jokerOf_some_val hjc
      have hltj : ∀ x ∈ List.range' (cfg.numbers * c + num) len, x < j := by
        intro x hx
        have hb := mem_range'_bounds hx
        have hm1 : cfg.numbers * (c + 1) ≤ cfg.numbers * cfg.colours :=
          Nat.mul_le_mul_left _ (by omega)
        have hm2 : cfg.numbers * (c + 1) = cfg.numbers * c + cfg.numbers := by ring
        omega
      by_cases hmin : (List.range' (cfg.numbers * c + num) len).length = cfg.min_len
      · rw [if_pos hmin] at hgin
        obtain ⟨u, kj, rfl, husub, hulen, hkjJ⟩ := combo_split hgin
        have hultj : ∀ x ∈ u, x < j := fun x hx => hltj x (husub.subset hx)
        unfold njFaces
        rw [njList_append_replicate hjc hultj]
        rw [hmin] at hulen
        intro hcon
        have hu0 : u.length = 0 := by simpa using congrArg List.length hcon
        omega
      · rw [if_neg hmin, if_pos rfl] at hgin
        have hlen2 : 2 ≤ len := by omega
        obtain ⟨-, v, hv, -, hvne⟩ :=
          canonSet_fix_runlong_aux hjc hlen2 hltj hmin hgin
        unfold njFaces
        rw [hv]
        intro hcon
        have hv0 : v.length = 0 := by simpa using congrArg List.length hcon
        exact hvne (List.length_eq_zero.mp hv0)
  · cases hjc : jokerOf cfg with
    | none =>
      rw [combineJokers_none hjc] at hgg
      obtain ⟨num, len, h1, hn, hl1, hl2, hslen, hsub⟩ := mem_groupBases hgg
      unfold njFaces
      rw [njList_none hjc]
      intro hcon
      have hg0 : g.length = 0 := by simpa using congrArg List.length hcon
      omega
    | some j =>
      rw [combineJokers_some hjc, List.mem_flatMap] at hgg
      obtain ⟨s, hs, hgin⟩ := hgg
      obtain ⟨num, len, h1, hn, hl1, hl2, hslen, hsub⟩ := mem_groupBases hs
      have hjval := jokerOf_some_val hjc
      have hltj : ∀ x ∈ s, x < j := by
        intro x hx
        have := group_elem_le hn (hsub.subset hx)
        omega
      by_cases hmin : s.length = cfg.min_len
      · rw [if_pos hmin] at hgin
        obtain ⟨u, kj, rfl, husub, hulen, hkjJ⟩ := combo_split hgin
        have hultj : ∀ x ∈ u, x < j := fun x hx => hltj x (husub.subset hx)
        unfold njFaces
        rw [njList_append_replicate hjc hultj]
        rw [hmin] at hulen
        intro hcon
        have hu0 : u.length = 0 := by simpa using congrArg List.length hcon
        omega
      · rw [if_neg hmin, if_neg (by simp)] at hgin
        rw [List.mem_singleton] at hgin
        rw [hgin]
        unfold njFaces
        rw [njList_joker cfg hjc, filter_ne_of_all_lt hltj]
        intro hcon
        have hs0 : s.length = 0 := by simpa using congrArg List.length hcon
        omega

theorem setsList_calc_isSome (cfg : RuleConfig) (hjm : cfg.jokers < cfg.min_len) :
    ((setsList cfg).all fun s => (calcSet cfg s).isSome) = true := by
  rw [List.all_eq_true]
  intro s hsmem
  have hsall : s ∈ allSets cfg :=
    List.mem_dedup.mp ((List.mem_insertionSort _).mp hsmem)
  have hne := allSets_njFaces_ne_nil hjm hsall
  unfold calcSet
  rcases hfl : njFaces cfg s with _ | ⟨f0, _ | ⟨f1, rest⟩⟩
  · exact absurd hfl hne
  · rfl
  · rfl

/-- C4 counterexample: constructing a ruleset with `min_len = 5` and
`colours = 4` (the claim's example; remaining parameters at their defaults)
succeeds — no `InvalidConfig` (nor any other error) is raised, contradicting
the claim that out-of-range or mutually inconsistent parameters fail at
construction. -/
theorem rulesetInit_minlen5_colours4_succeeds :
    rulesetInit ⟨13, 2, 4, 2, 5, 30⟩ =
      Except.ok ⟨13, 2, 4, 2, 5, 30, 53, some 53⟩ := by
  unfold rulesetInit
  rw [if_pos (setsList_calc_isSome ⟨13, 2, 4, 2, 5, 30⟩ (by decide))]
  rfl

/-- C4 (amended): `RuleSet.__init__` performs no parameter validation and
never raises `InvalidConfig` (no such error exists in the code base).
Whenever the joker count is below the minimum set length — which includes
the claim's example `min_len = 5`, `colours = 4` and every out-of-range or
inconsistent parameter combination with `jokers < min_len` — construction
succeeds outright, storing the parameters and deriving `tile_count` and
`joker`.  The only way construction fails is the uncaught `StopIteration`
raised by the eager `setvalues` computation when `jokers ≥ min_len` places
an all-joker set in the enumeration (exhibited below at the in-range
configuration `(2, 1, 2, 2, 2, 1)`). -/
theorem rulesetInit_no_validation (cfg : RuleConfig)
    (h : cfg.jokers < cfg.min_len) :
    rulesetInit cfg =
      Except.ok
        { numbers := cfg.numbers
          repeats := cfg.repeats
          colours := cfg.colours
          jokers := cfg.jokers
          min_len := cfg.min_len
          min_initial_value := cfg.min_initial_value
          tile_count := tileCount cfg
          joker := jokerOf cfg } := by
  unfold rulesetInit
  rw [if_pos (setsList_calc_isSome cfg h)]

/-- C4 witness: at the claim's example parameters `min_len = 5`,
`colours = 4` (jokers 2 below min_len 5) construction succeeds. -/
theorem rulesetInit_no_validation_witness :
    (⟨13, 2, 4, 2, 5, 30⟩ : RuleConfig).jokers <
        (⟨13, 2, 4, 2, 5, 30⟩ : RuleConfig).min_len ∧
    rulesetInit ⟨13, 2, 4, 2, 5, 30⟩ =
      Except.ok ⟨13, 2, 4, 2, 5, 30, 53, some 53⟩ :=
  ⟨by decide, rulesetInit_no_validation ⟨13, 2, 4, 2, 5, 30⟩ (by decide)⟩

/-- Construction does fail — with an uncaught `StopIteration`, not an
`InvalidConfig` — when `jokers ≥ min_len` puts an all-joker set in the
enumeration: with `(N, R, C, J, L, V) = (2, 1, 2, 2, 2, 1)`, all parameters
inside the spec's ranges, the minimum-length combination `(j, j)` is
enumerated and `setvalues` raises during `__init__`. -/
theorem rulesetInit_all_joker_raises :
    rulesetInit ⟨2, 1, 2, 2, 2, 1⟩ = Except.error PyErr.stopIteration := by
  decide

/-- C6 (confirmed): for every legal configuration the enumerated `sets`
collection is sorted lexicographically (Python tuple order) and no two of
its entries share the same multiset of tile identifiers: every generated
tuple is the canonical arrangement of its own multiset, so the tuple-level
deduplication performed by the Python `set` is a multiset-level one. -/
theorem setsList_sorted_and_multiset_dedup (cfg : RuleConfig)
    (h : LegalConfig cfg) :
    List.Sorted (fun s t : List ℕ => s = t ∨ List.Lex (· < ·) s t) (setsList cfg) ∧
    List.Pairwise (fun s t : List ℕ => (↑s : Multiset ℕ) ≠ ↑t) (setsList cfg) := by
  constructor
  · have hs : List.Sorted (· ≤ ·) (setsList cfg) :=
      List.sorted_insertionSort _ _
    refine hs.imp ?_
    intro a b hab
    rcases lt_or_eq_of_le hab with hlt | heq
    · exact Or.inr hlt
    · exact Or.inl heq
  · have hnd : (setsList cfg).Nodup :=
      ((List.perm_insertionSort _ _).symm).nodup (List.nodup_dedup _)
    refine hnd.imp_of_mem ?_
    intro a b ha hb hne heq
    have hperm : a.Perm b := Multiset.coe_eq_coe.mp heq
    have ham : a ∈ allSets cfg :=
      List.mem_dedup.mp ((List.mem_insertionSort _).mp ha)
    have hbm : b ∈ allSets cfg :=
      List.mem_dedup.mp ((List.mem_insertionSort _).mp hb)
    have hca := (allSets_struct h ham).1
    have hcb := (allSets_struct h hbm).1
    exact hne ((hca.symm.trans (canonSet_congr cfg hperm)).trans hcb)

/-- C6 witness: the default configuration is legal and enjoys the sortedness
and multiset-level deduplication of its enumerated sets. -/
theorem setsList_sorted_and_multiset_dedup_witness :
    LegalConfig ⟨13, 2, 4, 2, 3, 30⟩ ∧
    (List.Sorted (fun s t : List ℕ => s = t ∨ List.Lex (· < ·) s t)
        (setsList ⟨13, 2, 4, 2, 3, 30⟩) ∧
      List.Pairwise (fun s t : List ℕ => (↑s : Multiset ℕ) ≠ ↑t)
        (setsList ⟨13, 2, 4, 2, 3, 30⟩)) :=
  ⟨by decide, setsList_sorted_and_multiset_dedup ⟨13, 2, 4, 2, 3, 30⟩ (by decide)⟩

theorem getD_eq_getElem {l : List ℤ} {i : ℕ} (h : i < l.length) :
    l.getD i 0 = l[i] := by
  rw [List.getD_eq_getElem?_getD, List.getElem?_eq_getElem h]
  rfl

theorem rlRow_length (n i : ℕ) : (rlRow n i).length = n + 1 := by
  induction i with
  | zero => simp [rlRow]
  | succ i ih => simp [rlRow, List.length_zipWith, ih]

theorem rlRow_succ_getD (n i m : ℕ) (hm : m ≤ n) :
    (rlRow n (i + 1)).getD m 0 = (rlRow n i).getD m 0 + rlTerm n i m := by
  have h1 : m < (rlRow n i).length := by rw [rlRow_length]; omega
  have h3 : m < (rlRow n (i + 1)).length := by rw [rlRow_length]; omega
  rw [getD_eq_getElem h3, getD_eq_getElem h1]
  simp only [rlRow, List.getElem_zipWith, List.getElem_map, List.getElem_range]

theorem rlRow_zero_getD (n m : ℕ) : (rlRow n 0).getD m 0 = 0 := by
  simp only [rlRow]
  exact getD_replicate_zero _ _

theorem rlvalues_getD (cfg : RuleConfig) {l : ℕ} (hl : l < cfg.min_len * 2) :
    (rlvalues cfg).getD l [] = rlRow cfg.numbers l := by
  unfold rlvalues
  have hl' : l < ((List.range (cfg.min_len * 2)).map (rlRow cfg.numbers)).length := by
    simpa using hl
  rw [List.getD_eq_getElem?_getD, List.getElem?_eq_getElem hl',
    List.getElem_map, List.getElem_range]
  rfl

/-- C1 (corrected): for every legal configuration the run-length value
table satisfies `rlmax[1][m] = m` and the recurrence
`rlmax[ℓ+1][m] = rlmax[ℓ][m] + (m+ℓ if m+ℓ ≤ N else N−ℓ)` — the increment is
capped by anchoring the run at `N` (adding `N−ℓ`), not by `min(m+ℓ, N)` as
claimed — and for every enumerated set whose non-joker face values are not
all equal, `set_value` is `rlmax(k, m₀)` where `k` is the set's length and
`m₀` the least non-joker face value. -/
theorem rlmax_recurrence_and_setvalues (cfg : RuleConfig) (h : LegalConfig cfg) :
    (∀ m ≤ cfg.numbers, rlAt cfg 1 m = m) ∧
    (∀ l m, 1 ≤ l → l + 1 < cfg.min_len * 2 → m ≤ cfg.numbers →
      rlAt cfg (l + 1) m = rlAt cfg l m +
        (if l + m ≤ cfg.numbers then (l + m : ℤ)
         else (cfg.numbers : ℤ) - (l : ℤ))) ∧
    (∀ s ∈ setsList cfg, ¬ AllSame (njFaces cfg s) →
      ∃ m0, m0 ∈ njFaces cfg s ∧ (∀ x ∈ njFaces cfg s, m0 ≤ x) ∧
        calcSet cfg s = some (rlAt cfg s.length m0)) := by
  have hml2 : 2 ≤ cfg.min_len := h.2.2.2.2.2.2.2.1
  refine ⟨?_, ?_, ?_⟩
  · intro m hm
    unfold rlAt
    rw [rlvalues_getD cfg (by omega), rlRow_succ_getD cfg.numbers 0 m hm,
      rlRow_zero_getD, rlTerm, if_pos (by omega)]
    simp
  · intro l m hl1 hl2 hm
    unfold rlAt
    rw [rlvalues_getD cfg (by omega), rlvalues_getD cfg (by omega),
      rlRow_succ_getD cfg.numbers l m hm, rlTerm]
  · intro s hsmem hns
    have hsall : s ∈ allSets cfg :=
      List.mem_dedup.mp ((List.mem_insertionSort _).mp hsmem)
    rcases (allSets_struct h hsall).2 with hpw | hsame
    · rcases hfl : njFaces cfg s with _ | ⟨f0, rest0⟩
      · rw [hfl] at hns
        exact (hns fun x hx => absurd hx (List.not_mem_nil x)).elim
      · rcases rest0 with _ | ⟨f1, rest⟩
        · rw [hfl] at hns
          refine (hns fun x hx y hy => ?_).elim
          rw [List.mem_singleton] at hx hy
          rw [hx, hy]
        · rw [hfl] at hpw
          have hcons := List.pairwise_cons.mp hpw
          have hf01 : f0 < f1 := hcons.1 f1 (List.mem_cons_self _ _)
          refine ⟨f0, List.mem_cons_self _ _, ?_, ?_⟩
          · intro x hx
            rcases List.mem_cons.mp hx with hx0 | hxr
            · omega
            · exact le_of_lt (hcons.1 x hxr)
          · unfold calcSet
            rw [hfl]
            exact congrArg some (if_neg (Nat.ne_of_lt hf01))
    · exact absurd hsame hns

/-- C1 witness: the default configuration is legal and satisfies the
amended recurrence and the per-set run scoring rule. -/
theorem rlmax_recurrence_and_setvalues_witness :
    LegalConfig ⟨13, 2, 4, 2, 3, 30⟩ ∧
    ((∀ m ≤ (13 : ℕ), rlAt ⟨13, 2, 4, 2, 3, 30⟩ 1 m = m) ∧
      (∀ l m, 1 ≤ l → l + 1 < 3 * 2 → m ≤ 13 →
        rlAt ⟨13, 2, 4, 2, 3, 30⟩ (l + 1) m = rlAt ⟨13, 2, 4, 2, 3, 30⟩ l m +
          (if l + m ≤ 13 then (l + m : ℤ) else (13 : ℤ) - (l : ℤ))) ∧
      (∀ s ∈ setsList ⟨13, 2, 4, 2, 3, 30⟩,
        ¬ AllSame (njFaces ⟨13, 2, 4, 2, 3, 30⟩ s) →
        ∃ m0, m0 ∈ njFaces ⟨13, 2, 4, 2, 3, 30⟩ s ∧
          (∀ x ∈ njFaces ⟨13, 2, 4, 2, 3, 30⟩ s, m0 ≤ x) ∧
          calcSet ⟨13, 2, 4, 2, 3, 30⟩ s =
            some (rlAt ⟨13, 2, 4, 2, 3, 30⟩ s.length m0))) :=
  ⟨by decide, rlmax_recurrence_and_setvalues ⟨13, 2, 4, 2, 3, 30⟩ (by decide)⟩

/-! ### Solver Core (solver.py)

The ILP assignment is embedded as a pair of integer-valued vectors (given as
functions on row/column indices); the MILP backend is external code, so a
theorem about "a solution the solver returns" quantifies over assignments
satisfying the constraint system built in `RummikubSolver.__init__` and is
stated about the decoding performed in `RummikubSolver.__call__`. -/

/-- Number of enumerated sets (columns of the incidence matrix). -/
def numSets (cfg : RuleConfig) : ℕ := (setsList cfg).length

/-- Incidence matrix entry: how many copies of tile `i + 1` appear in set
`s` (`smatrix` built with `np.add.at` in `RummikubSolver.__init__`). -/
def sMatrix (cfg : RuleConfig) (i s : ℕ) : ℕ := ((setsList cfg).getD s []).count (i + 1)

/-- Number of rows covered by the `numbertiles` slice (`tiles[:-1]` with a
joker, all rows otherwise). -/
def numberRows (cfg : RuleConfig) : ℕ :=
  if cfg.jokers ≠ 0 then tileCount cfg - 1 else tileCount cfg

/-- The constraint list shared by all three problem templates
(solver.py lines 110-138): table/rack balance, rack bound, set-multiplicity
bounds `[0, repeats]`, number-tile bounds `[0, repeats]`, and the joker-row
bounds `[0, jokers]` when a joker exists. -/
def CommonFeasible (cfg : RuleConfig) (table rack sx ty : ℕ → ℤ) : Prop :=
  (∀ i < tileCount cfg,
    (∑ s ∈ Finset.range (numSets cfg), sx s * (sMatrix cfg i s : ℤ)) = table i + ty i) ∧
  (∀ i < tileCount cfg, ty i ≤ rack i) ∧
  (∀ s < numSets cfg, 0 ≤ sx s) ∧
  (∀ s < numSets cfg, sx s ≤ (cfg.repeats : ℤ)) ∧
  (∀ i < numberRows cfg, 0 ≤ ty i) ∧
  (∀ i < numberRows cfg, ty i ≤ (cfg.repeats : ℤ)) ∧
  (cfg.jokers ≠ 0 →
    0 ≤ ty (tileCount cfg - 1) ∧ ty (tileCount cfg - 1) ≤ (cfg.jokers : ℤ))

/-- The INITIAL problem template adds `sets @ setvalue >= min_initial_value`
(solver.py lines 159-167). -/
def InitialFeasible (cfg : RuleConfig) (table rack sx ty : ℕ → ℤ) : Prop :=
  CommonFeasible cfg table rack sx ty ∧
  (cfg.min_initial_value : ℤ) ≤
    ∑ s ∈ Finset.range (numSets cfg), sx s * setValueAt cfg s

/-- Decoding of the tile vector (solver.py lines 196-203): each nonzero row
`i` emits tile `i + 1` repeated `tiles_y[i]` times. -/
def decodeTiles (cfg : RuleConfig) (ty : ℕ → ℤ) : List ℕ :=
  (List.range (tileCount cfg)).flatMap fun i => List.replicate (ty i).toNat (i + 1)

/-- Decoding of the set vector (solver.py lines 205-209): each nonzero
column `s` emits index `s` repeated `sets_x[s]` times. -/
def decodeSets (cfg : RuleConfig) (sx : ℕ → ℤ) : List ℕ :=
  (List.range (numSets cfg)).flatMap fun s => List.replicate (sx s).toNat s

theorem decode_value_sum (n : ℕ) (sx : ℕ → ℤ) (f : ℕ → ℤ)
    (hnn : ∀ s < n, 0 ≤ sx s) :
    (((List.range n).flatMap fun s => List.replicate (sx s).toNat s).map f).sum =
      ∑ s ∈ Finset.range n, sx s * f s := by
  induction n with
  | zero => simp
  | succ n ih =>
    rw [List.range_succ, List.flatMap_append, List.map_append, List.sum_append,
      ih (fun s hs => hnn s (by omega)), Finset.sum_range_succ]
    congr 1
    simp only [List.flatMap_cons, List.flatMap_nil, List.append_nil,
      List.map_replicate, List.sum_replicate, nsmul_eq_mul]
    rw [Int.toNat_of_nonneg (hnn n (by omega))]

/-- C5 (confirmed): any integer assignment satisfying the INITIAL template's
constraints — in particular any optimum the MILP backend returns, which
`__call__` then decodes — has its decoded set indices scoring at least the
ruleset's minimum initial value: the multiplicity-weighted sum over the
decoded indices is exactly `sets_x · set_value`, which the added INITIAL
constraint bounds below by `min_initial_value`.  (In INITIAL mode `__call__`
zeroes the table parameter, hence the `fun i => 0` binding.) -/
theorem initial_solution_meets_threshold (cfg : RuleConfig)
    (rack sx ty : ℕ → ℤ)
    (hfeas : InitialFeasible cfg (fun _ => 0) rack sx ty)
    (_hne : decodeTiles cfg ty ≠ []) :
    (cfg.min_initial_value : ℤ) ≤
      ((decodeSets cfg sx).map (setValueAt cfg)).sum := by
  rw [decodeSets, decode_value_sum _ _ _ hfeas.1.2.2.1]
  exact hfeas.2

instance (cfg : RuleConfig) (table rack sx ty : ℕ → ℤ) :
    Decidable (CommonFeasible cfg table rack sx ty) := by
  unfold CommonFeasible; infer_instance

instance (cfg : RuleConfig) (table rack sx ty : ℕ → ℤ) :
    Decidable (InitialFeasible cfg table rack sx ty) := by
  unfold InitialFeasible; infer_instance

/-- C5 witness: in the tiny legal-shaped configuration
`(N, R, C, J, L, V) = (2, 1, 2, 0, 2, 1)` the assignment placing the run
`(1, 2)` (set index 0) from a full rack is INITIAL-feasible, decodes to a
non-empty tile list, and scores `3 ≥ 1`. -/
theorem initial_solution_meets_threshold_witness :
    (InitialFeasible ⟨2, 1, 2, 0, 2, 1⟩ (fun _ => 0) (fun _ => 1)
        (fun s => if s = 0 then 1 else 0) (fun i => if i < 2 then 1 else 0) ∧
      decodeTiles ⟨2, 1, 2, 0, 2, 1⟩ (fun i => if i < 2 then 1 else 0) ≠ []) ∧
    ((⟨2, 1, 2, 0, 2, 1⟩ : RuleConfig).min_initial_value : ℤ) ≤
      ((decodeSets ⟨2, 1, 2, 0, 2, 1⟩ (fun s => if s = 0 then 1 else 0)).map
        (setValueAt ⟨2, 1, 2, 0, 2, 1⟩)).sum :=
  ⟨⟨by decide, by decide⟩,
    initial_solution_meets_threshold ⟨2, 1, 2, 0, 2, 1⟩ (fun _ => 1)
      (fun s => if s = 0 then 1 else 0) (fun i => if i < 2 then 1 else 0)
      (by decide) (by decide)⟩

/-! ### RuleSet orchestration (ruleset.py `solve`, `arrange_table`)

The solver core object is external to these methods; it is passed in as a
function (oracle) from mode and state to a `SolverSolution` — the observable
behaviour of `RummikubSolver.__call__`, which always returns a
`SolverSolution` value and never `None`. -/

/-- The three objective modes of types.py `SolverMode`. -/
inductive SolverMode where
  | INITIAL : SolverMode
  | TILE_COUNT : SolverMode
  | TOTAL_VALUE : SolverMode
deriving DecidableEq, Repr

/-- Raw solver output (types.py `SolverSolution`). -/
structure SolverSolution where
  tiles : List ℕ
  set_indices : List ℕ
deriving DecidableEq, Repr

/-- Proposed move (types.py `ProposedSolution`). -/
structure ProposedSolution where
  tiles : List ℕ
  sets : List (List ℕ)
deriving DecidableEq, Repr

/-- Table arrangement (types.py `TableArrangement`). -/
structure TableArrangement where
  sets : List (List ℕ)
  free_jokers : ℕ
deriving DecidableEq, Repr

/-- Embedding of `RuleSet.solve` (ruleset.py lines 43-78).  Mode defaults
from the state's initial flag; an empty tile answer returns `None`; in
INITIAL mode with a non-empty table a second TILE_COUNT solve runs on
`state.with_move(sol.tiles)` (which can raise `ValueError`) and — because
the Python guard `if stage2 is not None:` always holds, `__call__` returning
a `SolverSolution`, never `None` — the union of the tile lists (sorted) and
the second call's set decomposition are adopted unconditionally.  Set
indices are resolved through `self.sets[i]`, totalised here with `getD`
(a real solver only emits in-range indices). -/
def ruleSetSolve (cfg : RuleConfig)
    (solver : SolverMode → GameStateRep → SolverSolution)
    (state : GameStateRep) (modeArg : Option SolverMode) :
    Except PyErr (Option ProposedSolution) :=
  let mode := modeArg.getD
    (if state.initial then SolverMode.INITIAL else SolverMode.TILE_COUNT)
  let sol := solver mode state
  if sol.tiles = [] then Except.ok none
  else if mode = SolverMode.INITIAL ∧ state.table ≠ 0 then
    match withMove state sol.tiles with
    | Except.error e => Except.error e
    | Except.ok (_, newState) =>
        let stage2 := solver SolverMode.TILE_COUNT newState
        Except.ok (some
          { tiles := List.insertionSort (· ≤ ·) (sol.tiles ++ stage2.tiles)
            sets := stage2.set_indices.map fun i => (setsList cfg).getD i [] })
  else
    Except.ok (some
      { tiles := sol.tiles
        sets := sol.set_indices.map fun i => (setsList cfg).getD i [] })

/-- Loop body of `RuleSet.arrange_table`: Python
`for jc in range(joker_count + 1)`, adding one joker back per iteration from
`jc = 1` on, mutating the same copied state throughout.  The last argument
is the number of remaining iterations. -/
def arrangeLoop (solver : SolverMode → GameStateRep → SolverSolution)
    (setsL : List (List ℕ)) (jokerId jokerCount : ℕ) :
    GameStateRep → ℕ → ℕ → Option TableArrangement
  | _, _, 0 => none
  | st, jc, rem + 1 =>
      let st1 := if jc = 0 then st else addTable st [jokerId]
      let sol := solver SolverMode.TILE_COUNT st1
      if sol.set_indices ≠ [] then
        some { sets := sol.set_indices.map fun i => setsL.getD i []
               free_jokers := jokerCount - jc }
      else arrangeLoop solver setsL jokerId jokerCount st1 (jc + 1) rem

/-- Embedding of `RuleSet.arrange_table` (ruleset.py lines 80-98).  The
local `joker_count` is assigned only under `if joker is not None:`, yet the
loop header `for jc in range(joker_count + 1)` reads it unconditionally — so
with a joker-less ruleset the method raises `UnboundLocalError` before any
solver call. -/
def arrangeTable (cfg : RuleConfig)
    (solver : SolverMode → GameStateRep → SolverSolution)
    (state : GameStateRep) : Except PyErr (Option TableArrangement) :=
  let t := tableOnly state
  match jokerOf cfg with
  | none => Except.error PyErr.unboundLocal
  | some j =>
      let jokerCount := t.table.count j
      let t1 := removeTable t (List.replicate jokerCount j)
      Except.ok (arrangeLoop solver (setsList cfg) j jokerCount t1 0 (jokerCount + 1))

/-- C2 (code bug): with a ruleset configured with `jokers = 0` — legal per
the spec — `arrange_table` raises `UnboundLocalError` on every state and
every backend, instead of treating the joker count as zero and returning
normally as the claim (and the spec) state. -/
theorem arrangeTable_no_jokers_raises
    (solver : SolverMode → GameStateRep → SolverSolution) (state : GameStateRep) :
    arrangeTable ⟨13, 2, 4, 0, 3, 30⟩ solver state =
      Except.error PyErr.unboundLocal := rfl

/-- Oracle reproducing the optimal MILP answers in the C3 scenario below
(configuration `(N, R, C, J, L, V) = (2, 1, 2, 0, 2, 1)`, whose enumerated
sets are `[(1,2), (1,3), (2,4), (3,4)]`): the INITIAL solve on rack `{1, 2}`
with a zeroed table places `[1, 2]` as set index 0 (the run `(1, 2)`, value
`3 ≥ 1`); the follow-up TILE_COUNT solve on table `{1, 2, 3}` with an empty
rack is infeasible — no multiset union of enumerated sets equals
`{1, 2, 3}` — so the backend reports an infinite objective and `__call__`
returns the empty `SolverSolution`. -/
def c3Solver : SolverMode → GameStateRep → SolverSolution := fun mode _ =>
  if mode = SolverMode.INITIAL then ⟨[1, 2], [0]⟩ else ⟨[], []⟩

/-- C3 (code bug, evaluated at the failing input): in INITIAL mode on a
non-empty table, when the second TILE_COUNT call returns the empty solution,
`solve` still adopts the second call's (empty) set decomposition — the guard
`if stage2 is not None:` always holds — so the first call's decomposition
`[(1, 2)]` is lost and a `ProposedSolution` with tiles but no sets is
returned, contrary to the claim that the first call's tiles and sets come
back unchanged. -/
theorem solve_initial_stage2_empty_drops_sets :
    ruleSetSolve ⟨2, 1, 2, 0, 2, 1⟩ c3Solver
        (gameStateInit (tileCount ⟨2, 1, 2, 0, 2, 1⟩) [3] [1, 2]) none =
      Except.ok (some { tiles := [1, 2], sets := [] }) ∧
    (c3Solver SolverMode.INITIAL
          (gameStateInit (tileCount ⟨2, 1, 2, 0, 2, 1⟩) [3] [1, 2])).set_indices.map
        (fun i => (setsList ⟨2, 1, 2, 0, 2, 1⟩).getD i []) = [[1, 2]] ∧
    ([] : List (List ℕ)) ≠ [[1, 2]] := by
  decide
